import Mathlib

/- Verification of the delivery-guarantee core of the benthos stream
   processor: the Auto-Retry Nack Buffer (input.AsyncPreserver /
   service.AutoRetryNacks), the Async Sink Driver (output.AsyncWriter)
   and the branch processor alignment (pure.alignBranchResult).

   The Async Sink Driver and the branch processor are embedded from their
   Go sources.  The Auto-Retry Nack Buffer implementation is not part of
   the source tree (only its tests are), so it is modelled from the
   specification text, cross-checked against the behaviour pinned down by
   async_preserver_test.go and input_auto_retry_test.go. -/

namespace Benthos

/-! ## Data model: parts and batches

A message part carries a byte payload (modelled as a string) and the
stable sort-group identity token that survives copies and reorderings
(spec section 3, "Part" / "Sort-Group"). -/

structure Part where
  contents : String
  token : Nat
deriving DecidableEq

/-- Modelled from the spec: the terminating cause handed to an ack
callback.  `ok` is a positive ack (nil cause), `err` a whole-message
nack, `batchErr` a Batch-Error carrying the (possibly reordered) batch
it was attached to together with the set of failed indices into that
batch (spec section 3, "Batch-Error"). -/
inductive Cause where
  | ok
  | err (m : String)
  | batchErr (b : List Part) (failed : List Nat)
deriving DecidableEq

/-- Modelled from the spec: a retry-queue entry of the Auto-Retry Nack
Buffer: the retained copy of a read message plus the identity of the
upstream read whose ack callback it owns (spec section 3, "Retry queue
entry"). -/
structure Entry where
  msg : List Part
  src : Nat
deriving DecidableEq

/-- Modelled from the spec: "If a Batch-Error is supplied, only the
failed indices are preserved for re-serving; the successfully acked
indices are collapsed out of the retained copy" (spec 4.C).  The error
batch `b` is walked in order and the parts at failed indices are kept,
matching the behaviour pinned by TestAsyncPreserverBatchError and
TestAsyncPreserverBatchErrorUnordered. -/
def collapseFailed (b : List Part) (failed : List Nat) : List Part :=
  (b.enum.filter (fun p => p.1 ∈ failed)).map Prod.snd

/-- Specification-side rendering of "the parts at indices in F, in
ascending original-index order": walk the batch with an index counter
and keep the parts whose index is failed. -/
def partsAtFailed (failed : List Nat) : Nat → List Part → List Part
  | _, [] => []
  | i, p :: rest =>
    if i ∈ failed then p :: partsAtFailed failed (i + 1) rest
    else partsAtFailed failed (i + 1) rest

/-- Modelled from the spec: the state of the Auto-Retry Nack Buffer
(spec 4.C).  `upstream` scripts the messages the wrapped reader will
yield; `pending` is the ordered queue of entries awaiting re-serving;
`inflight` maps the identifier of each served, unresolved copy to its
entry; `upstreamAcks` records every invocation of an upstream ack
callback (read identity, cause); `resolutions` records the outcome of
every served copy (copy id, read identity, positively acked?). -/
structure PresState where
  upstream : List (List Part)
  upstreamReads : Nat
  pending : List Entry
  inflight : List (Nat × Entry)
  nextCopy : Nat
  upstreamAcks : List (Nat × Option String)
  resolutions : List (Nat × Nat × Bool)
deriving DecidableEq

def initState (ups : List (List Part)) : PresState :=
  ⟨ups, 0, [], [], 0, [], []⟩

/-- Modelled from the spec, Read algorithm (spec 4.C): if `pending` is
non-empty serve its head entry, otherwise pull a fresh message from the
wrapped reader and register a new entry for it. -/
def readStep (s : PresState) : Option (List Part) × PresState :=
  match s.pending with
  | e :: rest =>
    (some e.msg,
      { s with pending := rest,
               inflight := s.inflight ++ [(s.nextCopy, e)],
               nextCopy := s.nextCopy + 1 })
  | [] =>
    match s.upstream with
    | [] => (none, s)
    | m :: ms =>
      (some m,
        { s with upstream := ms,
                 upstreamReads := s.upstreamReads + 1,
                 inflight := s.inflight ++ [(s.nextCopy, Entry.mk m s.upstreamReads)],
                 nextCopy := s.nextCopy + 1 })

/-- Modelled from the spec, ack callback behaviour (spec 4.C): a
positive ack invokes the upstream ack with nil, returns its result and
removes the entry; a nack re-queues the entry at the tail of `pending`
(collapsing it through the Batch-Error failed set when one is supplied)
and returns nil to the caller.  An unknown copy id is a no-op. -/
def ackStep (upRet : Nat → Option String) (c : Nat) (cause : Cause) (s : PresState) :
    Option String × PresState :=
  match s.inflight.find? (fun p => p.1 == c) with
  | none => (none, s)
  | some ce =>
    let e := ce.2
    let inflight2 := s.inflight.filter (fun p => p.1 != c)
    match cause with
    | Cause.ok =>
      (upRet e.src,
        { s with inflight := inflight2,
                 resolutions := s.resolutions ++ [(c, e.src, true)],
                 upstreamAcks := s.upstreamAcks ++ [(e.src, none)] })
    | Cause.err _ =>
      (none,
        { s with inflight := inflight2,
                 resolutions := s.resolutions ++ [(c, e.src, false)],
                 pending := s.pending ++ [e] })
    | Cause.batchErr b f =>
      (none,
        { s with inflight := inflight2,
                 resolutions := s.resolutions ++ [(c, e.src, false)],
                 pending := s.pending ++ [Entry.mk (collapseFailed b f) e.src] })

/-- An operation against the buffer: a Read, or an invocation of the ack
callback of served copy `c` with a cause. -/
inductive POp where
  | read
  | ack (c : Nat) (cause : Cause)

def pstepF (upRet : Nat → Option String) (s : PresState) : POp → PresState
  | POp.read => (readStep s).2
  | POp.ack c cause => (ackStep upRet c cause s).2

def runOps (upRet : Nat → Option String) (ops : List POp) (s : PresState) : PresState :=
  ops.foldl (pstepF upRet) s

/-- The batch served by one operation (empty for acks and failed reads). -/
def servedOf (s : PresState) : POp → List (List Part)
  | POp.read =>
    match (readStep s).1 with
    | some m => [m]
    | none => []
  | POp.ack _ _ => []

/-- All batches served along a trace of operations. -/
def traceServed (upRet : Nat → Option String) : List POp → PresState → List (List Part)
  | [], _ => []
  | op :: ops, s => servedOf s op ++ traceServed upRet ops (pstepF upRet s op)

/-! ### Redelivery order (claim C1) -/

theorem traceServed_reads (upRet : Nat → Option String) :
    ∀ (n : Nat) (s : PresState), n ≤ s.pending.length →
      traceServed upRet (List.replicate n POp.read) s = (s.pending.take n).map Entry.msg
        ∧ (runOps upRet (List.replicate n POp.read) s).upstreamReads = s.upstreamReads
        ∧ (runOps upRet (List.replicate n POp.read) s).upstream = s.upstream := by
  intro n
  induction n with
  | zero => intro s _; exact ⟨rfl, rfl, rfl⟩
  | succ n ih =>
    intro s hlen
    match hp : s.pending with
    | [] => simp [hp] at hlen
    | e :: rest =>
      have hrest : n ≤ rest.length := by
        have := hlen
        rw [hp] at this
        simpa using Nat.lt_succ_iff.mp (Nat.lt_of_lt_of_le (Nat.lt_succ_self n) this)
      have hstep : pstepF upRet s POp.read =
          { s with pending := rest,
                   inflight := s.inflight ++ [(s.nextCopy, e)],
                   nextCopy := s.nextCopy + 1 } := by
        simp [pstepF, readStep, hp]
      have ihr := ih { s with pending := rest,
                              inflight := s.inflight ++ [(s.nextCopy, e)],
                              nextCopy := s.nextCopy + 1 } hrest
      refine ⟨?_, ?_, ?_⟩
      · simp only [List.replicate_succ, traceServed, hstep]
        rw [ihr.1]
        simp [servedOf, readStep, hp]
      · simp only [List.replicate_succ, runOps, List.foldl_cons, hstep]
        exact ihr.2.1
      · simp only [List.replicate_succ, runOps, List.foldl_cons, hstep]
        exact ihr.2.2

theorem nack_appends_tail (upRet : Nat → Option String) (s : PresState) (c : Nat)
    (m : String) (e : Entry) (h : s.inflight.find? (fun p => p.1 == c) = some (c, e)) :
    (ackStep upRet c (Cause.err m) s).2.pending = s.pending ++ [e] := by
  simp [ackStep, h]

/-- Claim C1.  Entries nacked back to the Auto-Retry Nack Buffer are
appended to the tail of the pending queue, and as long as entries are
pending the next Reads serve exactly those entries, head first, in
insertion order, without pulling anything from the wrapped reader. -/
theorem autoRetry_nack_redelivery_order :
    ∀ (upRet : Nat → Option String) (s : PresState),
      (∀ (c : Nat) (m : String) (e : Entry),
        s.inflight.find? (fun p => p.1 == c) = some (c, e) →
        (ackStep upRet c (Cause.err m) s).2.pending = s.pending ++ [e])
      ∧ (∀ n, n ≤ s.pending.length →
          traceServed upRet (List.replicate n POp.read) s = (s.pending.take n).map Entry.msg
            ∧ (runOps upRet (List.replicate n POp.read) s).upstream = s.upstream
            ∧ (runOps upRet (List.replicate n POp.read) s).upstreamReads = s.upstreamReads) := by
  intro upRet s
  refine ⟨fun c m e h => nack_appends_tail upRet s c m e h, fun n hn => ?_⟩
  obtain ⟨h1, h2, h3⟩ := traceServed_reads upRet n s hn
  exact ⟨h1, h3, h2⟩

/-- Witness for C1 on a concrete state: two pending entries are served
in insertion order by two reads, the wrapped reader is untouched, and a
nack of an inflight copy appends its entry at the tail. -/
theorem autoRetry_nack_redelivery_order_witness :
    traceServed (fun _ => none)
        (List.replicate 2 POp.read)
        { upstream := [[Part.mk "new" 9]], upstreamReads := 3,
          pending := [Entry.mk [Part.mk "m1" 0] 0, Entry.mk [Part.mk "m2" 1] 1],
          inflight := [(7, Entry.mk [Part.mk "m3" 2] 2)], nextCopy := 8,
          upstreamAcks := [], resolutions := [] }
      = [[Part.mk "m1" 0], [Part.mk "m2" 1]]
    ∧ (ackStep (fun _ => none) 7 (Cause.err "boom")
        { upstream := [[Part.mk "new" 9]], upstreamReads := 3,
          pending := [Entry.mk [Part.mk "m1" 0] 0, Entry.mk [Part.mk "m2" 1] 1],
          inflight := [(7, Entry.mk [Part.mk "m3" 2] 2)], nextCopy := 8,
          upstreamAcks := [], resolutions := [] }).2.pending
      = [Entry.mk [Part.mk "m1" 0] 0, Entry.mk [Part.mk "m2" 1] 1,
         Entry.mk [Part.mk "m3" 2] 2] := by
  have h := autoRetry_nack_redelivery_order (fun _ => none)
    { upstream := [[Part.mk "new" 9]], upstreamReads := 3,
      pending := [Entry.mk [Part.mk "m1" 0] 0, Entry.mk [Part.mk "m2" 1] 1],
      inflight := [(7, Entry.mk [Part.mk "m3" 2] 2)], nextCopy := 8,
      upstreamAcks := [], resolutions := [] }
  refine ⟨?_, ?_⟩
  · have := (h.2 2 (by decide)).1
    rw [this]; decide
  · have := h.1 7 "boom" (Entry.mk [Part.mk "m3" 2] 2) (by decide)
    rw [this]; decide

/-! ### Partial-batch collapsing (claim C2) -/

theorem collapseFrom_eq (failed : List Nat) :
    ∀ (b : List Part) (n : Nat),
      ((List.enumFrom n b).filter (fun p => p.1 ∈ failed)).map Prod.snd
        = partsAtFailed failed n b := by
  intro b
  induction b with
  | nil => intro n; rfl
  | cons p rest ih =>
    intro n
    by_cases hn : n ∈ failed
    · simp [List.enumFrom, List.filter_cons, hn, partsAtFailed, ih]
    · simp [List.enumFrom, List.filter_cons, hn, partsAtFailed, ih]

theorem collapseFailed_eq (b : List Part) (failed : List Nat) :
    collapseFailed b failed = partsAtFailed failed 0 b :=
  collapseFrom_eq failed b 0

theorem getElem?_mem_part : ∀ (l : List Part) (j : Nat) (x : Part), l[j]? = some x → x ∈ l := by
  intro l
  induction l with
  | nil => intro j x h; simp at h
  | cons a t ih =>
    intro j x h
    match j with
    | 0 =>
      have : a = x := by simpa using h
      rw [← this]; exact List.mem_cons_self _ _
    | Nat.succ j =>
      have ht : t[j]? = some x := by simpa using h
      exact List.mem_cons_of_mem _ (ih j x ht)

theorem mem_partsAtFailed (failed : List Nat) :
    ∀ (b : List Part) (n : Nat) (x : Part), x ∈ partsAtFailed failed n b →
      ∃ j, b[j]? = some x ∧ (n + j) ∈ failed := by
  intro b
  induction b with
  | nil => intro n x hx; simp [partsAtFailed] at hx
  | cons p rest ih =>
    intro n x hx
    by_cases hn : n ∈ failed
    · simp only [partsAtFailed, if_pos hn, List.mem_cons] at hx
      rcases hx with rfl | hx
      · exact ⟨0, by simp, by simpa using hn⟩
      · obtain ⟨j, hj, hjf⟩ := ih (n + 1) x hx
        refine ⟨j + 1, by simpa using hj, ?_⟩
        have harith : n + 1 + j = n + (j + 1) := by omega
        rw [harith] at hjf; exact hjf
    · simp only [partsAtFailed, if_neg hn] at hx
      obtain ⟨j, hj, hjf⟩ := ih (n + 1) x hx
      refine ⟨j + 1, by simpa using hj, ?_⟩
      have harith : n + 1 + j = n + (j + 1) := by omega
      rw [harith] at hjf; exact hjf

theorem mem_collapseFailed {b : List Part} {failed : List Nat} {x : Part}
    (h : x ∈ collapseFailed b failed) : x ∈ b := by
  rw [collapseFailed_eq] at h
  obtain ⟨j, hj, _⟩ := mem_partsAtFailed failed b 0 x h
  exact getElem?_mem_part b j x hj

theorem not_mem_collapseFailed_of_not_failed {b : List Part} {failed : List Nat}
    {i : Nat} {x : Part} (hnd : b.Nodup) (hx : b[i]? = some x) (hi : i ∉ failed) :
    x ∉ collapseFailed b failed := by
  intro hmem
  rw [collapseFailed_eq] at hmem
  obtain ⟨j, hj, hjf⟩ := mem_partsAtFailed failed b 0 x hmem
  simp only [Nat.zero_add] at hjf
  have hij : i = j := by
    have hilt : i < b.length := by
      by_contra hc
      rw [List.getElem?_eq_none (Nat.le_of_not_lt hc)] at hx
      exact Option.noConfusion hx
    have : b[i]? = b[j]? := by rw [hx, hj]
    exact List.getElem?_inj hilt hnd this
  exact hi (hij ▸ hjf)

/-- A part that occurs in no retained entry, no inflight copy and no
upstream message of a state. -/
def PartAbsent (x : Part) (s : PresState) : Prop :=
  (∀ e ∈ s.pending, x ∉ e.msg) ∧ (∀ ce ∈ s.inflight, x ∉ ce.2.msg)
    ∧ (∀ m ∈ s.upstream, x ∉ m)

/-- Downstream discipline assumed by the spec for Batch-Errors: the
error is attached to (a reordering of the parts of) the batch that was
served, so every Batch-Error nack in the trace carries a batch whose
parts are parts of the resolved entry's retained message. -/
def WellFormedOps (upRet : Nat → Option String) : PresState → List POp → Prop
  | _, [] => True
  | s, op :: ops =>
    (match op with
     | POp.ack c (Cause.batchErr b _) =>
       ∀ ce, s.inflight.find? (fun p => p.1 == c) = some ce →
         ∀ x, x ∈ b → x ∈ ce.2.msg
     | _ => True)
    ∧ WellFormedOps upRet (pstepF upRet s op) ops

theorem partAbsent_read (x : Part) (s : PresState) (hs : PartAbsent x s) :
    PartAbsent x (readStep s).2 ∧ ∀ m, (readStep s).1 = some m → x ∉ m := by
  obtain ⟨hp, hi, hu⟩ := hs
  match hpend : s.pending with
  | e :: rest =>
    have hemem : e ∈ s.pending := by rw [hpend]; exact List.mem_cons_self _ _
    have h2 : (readStep s).2 =
        { s with pending := rest,
                 inflight := s.inflight ++ [(s.nextCopy, e)],
                 nextCopy := s.nextCopy + 1 } := by
      simp [readStep, hpend]
    have h1 : (readStep s).1 = some e.msg := by simp [readStep, hpend]
    refine ⟨?_, ?_⟩
    · rw [h2]
      refine ⟨?_, ?_, hu⟩
      · intro e' he'
        exact hp e' (by rw [hpend]; exact List.mem_cons_of_mem _ he')
      · intro ce hce
        rcases List.mem_append.mp hce with h | h
        · exact hi ce h
        · have hce2 : ce = (s.nextCopy, e) := by simpa using h
          rw [hce2]
          exact hp e hemem
    · intro m hm
      rw [h1] at hm
      have hme : e.msg = m := Option.some.inj hm
      rw [← hme]
      exact hp e hemem
  | [] =>
    match hup : s.upstream with
    | [] =>
      have h2 : (readStep s).2 = s := by simp [readStep, hpend, hup]
      have h1 : (readStep s).1 = none := by simp [readStep, hpend, hup]
      rw [h1, h2]
      exact ⟨⟨hp, hi, hu⟩, fun m hm => Option.noConfusion hm⟩
    | m :: ms =>
      have hmmem : m ∈ s.upstream := by rw [hup]; exact List.mem_cons_self _ _
      have h2 : (readStep s).2 =
          { s with upstream := ms,
                   upstreamReads := s.upstreamReads + 1,
                   inflight := s.inflight ++ [(s.nextCopy, Entry.mk m s.upstreamReads)],
                   nextCopy := s.nextCopy + 1 } := by
        simp [readStep, hpend, hup]
      have h1 : (readStep s).1 = some m := by simp [readStep, hpend, hup]
      refine ⟨?_, ?_⟩
      · rw [h2]
        refine ⟨hp, ?_, ?_⟩
        · intro ce hce
          rcases List.mem_append.mp hce with h | h
          · exact hi ce h
          · have hce2 : ce = (s.nextCopy, Entry.mk m s.upstreamReads) := by simpa using h
            rw [hce2]
            exact hu m hmmem
        · intro mm hmm
          exact hu mm (by rw [hup]; exact List.mem_cons_of_mem _ hmm)
      · intro mm hmm
        rw [h1] at hmm
        have hme : m = mm := Option.some.inj hmm
        rw [← hme]
        exact hu m hmmem

theorem partAbsent_ack (x : Part) (upRet : Nat → Option String) (c : Nat) (cause : Cause)
    (s : PresState) (hs : PartAbsent x s)
    (hwf : ∀ b f, cause = Cause.batchErr b f →
      ∀ ce, s.inflight.find? (fun p => p.1 == c) = some ce → ∀ y, y ∈ b → y ∈ ce.2.msg) :
    PartAbsent x (ackStep upRet c cause s).2 := by
  obtain ⟨hp, hi, hu⟩ := hs
  match hfind : s.inflight.find? (fun p => p.1 == c) with
  | none => simpa [ackStep, hfind] using ⟨hp, hi, hu⟩
  | some ce =>
    have hce := List.mem_of_find?_eq_some hfind
    have hfilter : ∀ p ∈ s.inflight.filter (fun q => q.1 != c), x ∉ p.2.msg := by
      intro p hpmem
      exact hi p (List.mem_of_mem_filter hpmem)
    match cause with
    | Cause.ok =>
      exact ⟨by simpa [ackStep, hfind] using hp,
             by simpa [ackStep, hfind] using hfilter,
             by simpa [ackStep, hfind] using hu⟩
    | Cause.err m =>
      refine ⟨?_, by simpa [ackStep, hfind] using hfilter,
              by simpa [ackStep, hfind] using hu⟩
      simp only [ackStep, hfind]
      intro e' he'
      rcases List.mem_append.mp he' with h | h
      · exact hp e' h
      · have he2 : e' = ce.2 := by simpa using h
        rw [he2]
        exact hi ce hce
    | Cause.batchErr b f =>
      refine ⟨?_, by simpa [ackStep, hfind] using hfilter,
              by simpa [ackStep, hfind] using hu⟩
      simp only [ackStep, hfind]
      intro e' he'
      rcases List.mem_append.mp he' with h | h
      · exact hp e' h
      · have he2 : e' = Entry.mk (collapseFailed b f) ce.2.src := by simpa using h
        rw [he2]
        intro hxmem
        exact hi ce hce (hwf b f rfl ce hfind x (mem_collapseFailed hxmem))

theorem partAbsent_trace (x : Part) (upRet : Nat → Option String) :
    ∀ (ops : List POp) (s : PresState), PartAbsent x s → WellFormedOps upRet s ops →
      (∀ m ∈ traceServed upRet ops s, x ∉ m) ∧ PartAbsent x (runOps upRet ops s) := by
  intro ops
  induction ops with
  | nil =>
    intro s hs _
    exact ⟨by intro m hm; simp [traceServed] at hm, hs⟩
  | cons op rest ih =>
    intro s hs hwf
    obtain ⟨hwf1, hwf2⟩ := hwf
    have hstep : PartAbsent x (pstepF upRet s op) ∧ ∀ m ∈ servedOf s op, x ∉ m := by
      match op with
      | POp.read =>
        obtain ⟨h1, h2⟩ := partAbsent_read x s hs
        refine ⟨h1, ?_⟩
        intro m hm
        match hr : (readStep s).1 with
        | some mm =>
          have hss : servedOf s POp.read = [mm] := by simp [servedOf, hr]
          rw [hss] at hm
          have hmm : m = mm := by simpa using hm
          rw [hmm]
          exact h2 mm hr
        | none =>
          have hss : servedOf s POp.read = [] := by simp [servedOf, hr]
          rw [hss] at hm
          simp at hm
      | POp.ack c cause =>
        refine ⟨partAbsent_ack x upRet c cause s hs ?_, by intro m hm; simp [servedOf] at hm⟩
        intro b f hcause ce hce y hy
        subst hcause
        exact hwf1 ce hce y hy
    obtain ⟨hrest, hfinal⟩ := ih (pstepF upRet s op) hstep.1 hwf2
    refine ⟨?_, hfinal⟩
    intro m hm
    simp only [traceServed] at hm
    rcases List.mem_append.mp hm with h | h
    · exact hstep.2 m h
    · exact hrest m h

/-- Claim C2.  Nacking a served batch with a Batch-Error whose failed
set is F retains exactly the parts at indices in F of the error batch,
in ascending index order; the next Read (with nothing else pending)
serves exactly that retained copy; a part at an index outside F is not
in the retained copy; and a part absent from every retained entry,
inflight copy and upstream message is never served by any later Read
(acked indices are not redelivered). -/
theorem autoRetry_partial_batch_redelivery :
    ∀ (upRet : Nat → Option String),
      (∀ (b : List Part) (failed : List Nat),
        collapseFailed b failed = partsAtFailed failed 0 b)
      ∧ (∀ (s : PresState) (c : Nat) (e : Entry) (b : List Part) (f : List Nat),
          s.pending = [] →
          s.inflight.find? (fun p => p.1 == c) = some (c, e) →
          traceServed upRet [POp.ack c (Cause.batchErr b f), POp.read] s
            = [collapseFailed b f])
      ∧ (∀ (b : List Part) (f : List Nat) (i : Nat) (x : Part),
          b.Nodup → b[i]? = some x → i ∉ f → x ∉ collapseFailed b f)
      ∧ (∀ (x : Part) (s : PresState) (ops : List POp),
          PartAbsent x s → WellFormedOps upRet s ops →
          ∀ m ∈ traceServed upRet ops s, x ∉ m) := by
  intro upRet
  refine ⟨collapseFailed_eq, ?_, ?_, ?_⟩
  · intro s c e b f hpend hfind
    have hs2 : (ackStep upRet c (Cause.batchErr b f) s).2 =
        { s with inflight := s.inflight.filter (fun p => p.1 != c),
                 resolutions := s.resolutions ++ [(c, e.src, false)],
                 pending := [Entry.mk (collapseFailed b f) e.src] } := by
      simp [ackStep, hfind, hpend]
    simp [traceServed, servedOf, pstepF, hs2, readStep]
  · intro b f i x hnd hx hf
    exact not_mem_collapseFailed_of_not_failed hnd hx hf
  · intro x s ops habs hwf
    exact (partAbsent_trace x upRet ops s habs hwf).1

/-- Witness for C2, spec scenario 4: batch foo/bar/baz/buz/bev nacked
with failed indices 1 and 3 is re-served as exactly bar and buz, and the
part foo at acked index 0 is not in the retained copy. -/
theorem autoRetry_partial_batch_redelivery_witness :
    traceServed (fun _ => some "ack propagated")
        [POp.ack 0 (Cause.batchErr
            [Part.mk "foo" 0, Part.mk "bar" 1, Part.mk "baz" 2,
             Part.mk "buz" 3, Part.mk "bev" 4] [1, 3]), POp.read]
        { upstream := [], upstreamReads := 1, pending := [],
          inflight := [(0, Entry.mk
            [Part.mk "foo" 0, Part.mk "bar" 1, Part.mk "baz" 2,
             Part.mk "buz" 3, Part.mk "bev" 4] 0)],
          nextCopy := 1, upstreamAcks := [], resolutions := [] }
      = [[Part.mk "bar" 1, Part.mk "buz" 3]]
    ∧ Part.mk "foo" 0 ∉ collapseFailed
        [Part.mk "foo" 0, Part.mk "bar" 1, Part.mk "baz" 2,
         Part.mk "buz" 3, Part.mk "bev" 4] [1, 3] := by
  have h := autoRetry_partial_batch_redelivery (fun _ => some "ack propagated")
  constructor
  · have h2 := h.2.1
      { upstream := [], upstreamReads := 1, pending := [],
        inflight := [(0, Entry.mk
          [Part.mk "foo" 0, Part.mk "bar" 1, Part.mk "baz" 2,
           Part.mk "buz" 3, Part.mk "bev" 4] 0)],
        nextCopy := 1, upstreamAcks := [], resolutions := [] }
      0
      (Entry.mk [Part.mk "foo" 0, Part.mk "bar" 1, Part.mk "baz" 2,
                 Part.mk "buz" 3, Part.mk "bev" 4] 0)
      [Part.mk "foo" 0, Part.mk "bar" 1, Part.mk "baz" 2,
       Part.mk "buz" 3, Part.mk "bev" 4]
      [1, 3] rfl (by decide)
    rw [h2]
    decide
  · exact h.2.2.1
      [Part.mk "foo" 0, Part.mk "bar" 1, Part.mk "baz" 2,
       Part.mk "buz" 3, Part.mk "bev" 4]
      [1, 3] 0 (Part.mk "foo" 0) (by decide) (by decide) (by decide)

/-- Claim C3.  Spec scenario 5: the batch foo/bar/baz/buz/bev is served,
the consumer re-sorts it to bar/buz/foo/bev/baz and attaches a
Batch-Error failing indices 1 and 2 of the reordered batch.  The buffer
re-serves the parts at those positions of the reordered batch, which by
sort-group identity are the original parts buz (token 3) and foo
(token 0) — not bar and baz, the parts at positions 1 and 2 of the
original batch. -/
theorem autoRetry_reordered_batch_identity :
    traceServed (fun _ => some "ack propagated")
        [POp.read,
         POp.ack 0 (Cause.batchErr
            [Part.mk "bar" 1, Part.mk "buz" 3, Part.mk "foo" 0,
             Part.mk "bev" 4, Part.mk "baz" 2] [1, 2]),
         POp.read]
        (initState
          [[Part.mk "foo" 0, Part.mk "bar" 1, Part.mk "baz" 2,
            Part.mk "buz" 3, Part.mk "bev" 4]])
      = [[Part.mk "foo" 0, Part.mk "bar" 1, Part.mk "baz" 2,
          Part.mk "buz" 3, Part.mk "bev" 4],
         [Part.mk "buz" 3, Part.mk "foo" 0]]
    ∧ [Part.mk "buz" 3, Part.mk "foo" 0]
        ≠ [Part.mk "bar" 1, Part.mk "baz" 2] := by
  exact ⟨by decide, by decide⟩

/-! ### Upstream ack discipline (claim C4) -/

theorem filter_eq_self_of_not_mem_ids {c : Nat} :
    ∀ (l : List (Nat × Entry)), c ∉ l.map Prod.fst →
      l.filter (fun p => p.1 != c) = l := by
  intro l
  induction l with
  | nil => intro _; rfl
  | cons a t ih =>
    intro h
    simp only [List.map_cons, List.mem_cons] at h
    push_neg at h
    have ha : (a.1 != c) = true := by
      simp only [bne_iff_ne, ne_eq]
      exact fun hh => h.1 hh.symm
    rw [List.filter_cons, if_pos ha, ih h.2]

theorem find?_filter_perm {c : Nat} :
    ∀ (l : List (Nat × Entry)) (ce : Nat × Entry),
      l.find? (fun p => p.1 == c) = some ce → (l.map Prod.fst).Nodup →
      List.Perm l (ce :: l.filter (fun p => p.1 != c)) := by
  intro l
  induction l with
  | nil => intro ce h _; simp at h
  | cons a t ih =>
    intro ce h hnd
    simp only [List.map_cons, List.nodup_cons] at hnd
    by_cases hac : a.1 = c
    · have hpa : (a.1 == c) = true := beq_iff_eq.mpr hac
      rw [List.find?_cons, hpa] at h
      have hcea : ce = a := (Option.some.inj h).symm
      have hfa : (a.1 != c) = false := by simp [bne, hpa]
      have hnotmem : c ∉ t.map Prod.fst := by rw [← hac]; exact hnd.1
      rw [hcea, List.filter_cons, hfa]
      simp only [Bool.false_eq_true, if_false]
      rw [filter_eq_self_of_not_mem_ids t hnotmem]
    · have hpa : (a.1 == c) = false := by simp [hac]
      rw [List.find?_cons, hpa] at h
      have hfa : (a.1 != c) = true := by simp [bne, hpa]
      have iht := ih ce h hnd.2
      rw [List.filter_cons, if_pos hfa]
      exact (iht.cons a).trans (List.Perm.swap ce a _)

/-- The multiset of upstream-read identities that are live in a state:
already acked upstream, retained in the pending queue, or attached to an
inflight served copy. -/
def liveSrcs (s : PresState) : Multiset Nat :=
  (↑(s.upstreamAcks.map Prod.fst) : Multiset Nat)
    + (↑(s.pending.map Entry.src) : Multiset Nat)
    + (↑(s.inflight.map (fun p => p.2.src)) : Multiset Nat)

/-- Invariant of the Auto-Retry Nack Buffer: every upstream read
identity occurs at most once across upstream-ack records, pending
entries and inflight copies (so the upstream ack fires at most once per
read); all identities are below the read counter; inflight copy ids are
unique and below the copy counter; the upstream-ack record is exactly
the record of positive copy resolutions, and every upstream ack was
made with a nil cause. -/
def PresInv (s : PresState) : Prop :=
  (liveSrcs s).Nodup
  ∧ (∀ y ∈ liveSrcs s, y < s.upstreamReads)
  ∧ (s.inflight.map Prod.fst).Nodup
  ∧ (∀ cid ∈ s.inflight.map Prod.fst, cid < s.nextCopy)
  ∧ s.upstreamAcks.map Prod.fst
      = (s.resolutions.filter (fun r => r.2.2)).map (fun r => r.2.1)
  ∧ (∀ a ∈ s.upstreamAcks, a.2 = none)

theorem ids_append_nodup (e : Entry) (s : PresState)
    (h3 : (s.inflight.map Prod.fst).Nodup)
    (h4 : ∀ cid ∈ s.inflight.map Prod.fst, cid < s.nextCopy) :
    ((s.inflight ++ [(s.nextCopy, e)]).map Prod.fst).Nodup
      ∧ (∀ cid ∈ (s.inflight ++ [(s.nextCopy, e)]).map Prod.fst, cid < s.nextCopy + 1) := by
  constructor
  · rw [List.map_append]
    have hperm : List.Perm (s.inflight.map Prod.fst ++ [(s.nextCopy, e)].map Prod.fst)
        (s.nextCopy :: s.inflight.map Prod.fst) := by
      simp only [List.map_cons, List.map_nil]
      exact List.perm_append_singleton s.nextCopy (s.inflight.map Prod.fst)
    rw [hperm.nodup_iff]
    exact List.nodup_cons.mpr ⟨fun hmem => absurd (h4 _ hmem) (by omega), h3⟩
  · intro cid hcid
    rw [List.map_append] at hcid
    rcases List.mem_append.mp hcid with h | h
    · exact Nat.lt_succ_of_lt (h4 _ h)
    · simp only [List.map_cons, List.map_nil, List.mem_singleton] at h
      omega

theorem presInv_read (s : PresState) (hs : PresInv s) : PresInv (readStep s).2 := by
  obtain ⟨h1, h2, h3, h4, h5, h6⟩ := hs
  match hpend : s.pending with
  | e :: rest =>
    have h2s : (readStep s).2 = { s with pending := rest, inflight := s.inflight ++ [(s.nextCopy, e)], nextCopy := s.nextCopy + 1 } := by
      simp [readStep, hpend]
    rw [h2s]
    have hlive : liveSrcs { s with pending := rest, inflight := s.inflight ++ [(s.nextCopy, e)], nextCopy := s.nextCopy + 1 } = liveSrcs s := by
      simp only [liveSrcs, hpend, List.map_append, List.map_cons, List.map_nil,
        ← Multiset.coe_add, ← Multiset.cons_coe, Multiset.coe_singleton,
        ← Multiset.singleton_add]
      abel
    obtain ⟨hids1, hids2⟩ := ids_append_nodup e s h3 h4
    exact ⟨by rw [hlive]; exact h1, by rw [hlive]; exact h2, hids1, hids2, h5, h6⟩
  | [] =>
    match hup : s.upstream with
    | [] =>
      have h2s : (readStep s).2 = s := by simp [readStep, hpend, hup]
      rw [h2s]
      exact ⟨h1, h2, h3, h4, h5, h6⟩
    | m :: ms =>
      have h2s : (readStep s).2 = { s with upstream := ms, upstreamReads := s.upstreamReads + 1, inflight := s.inflight ++ [(s.nextCopy, Entry.mk m s.upstreamReads)], nextCopy := s.nextCopy + 1 } := by
        simp [readStep, hpend, hup]
      rw [h2s]
      have hlive : liveSrcs { s with upstream := ms, upstreamReads := s.upstreamReads + 1, inflight := s.inflight ++ [(s.nextCopy, Entry.mk m s.upstreamReads)], nextCopy := s.nextCopy + 1 } = s.upstreamReads ::ₘ liveSrcs s := by
        simp only [liveSrcs, List.map_append, List.map_cons, List.map_nil,
          ← Multiset.coe_add, ← Multiset.cons_coe, Multiset.coe_singleton,
          ← Multiset.singleton_add]
        abel
      obtain ⟨hids1, hids2⟩ :=
        ids_append_nodup (Entry.mk m s.upstreamReads) s h3 h4
      refine ⟨?_, ?_, hids1, hids2, h5, h6⟩
      · rw [hlive]
        exact Multiset.nodup_cons.mpr
          ⟨fun hmem => absurd (h2 _ hmem) (by omega), h1⟩
      · rw [hlive]
        intro y hy
        show y < s.upstreamReads + 1
        rcases Multiset.mem_cons.mp hy with h | h
        · omega
        · exact Nat.lt_succ_of_lt (h2 _ h)

theorem presInv_ack (upRet : Nat → Option String) (c : Nat) (cause : Cause)
    (s : PresState) (hs : PresInv s) : PresInv (ackStep upRet c cause s).2 := by
  obtain ⟨h1, h2, h3, h4, h5, h6⟩ := hs
  match hfind : s.inflight.find? (fun p => p.1 == c) with
  | none =>
    have h2s : (ackStep upRet c cause s).2 = s := by
      cases cause <;> simp [ackStep, hfind]
    rw [h2s]
    exact ⟨h1, h2, h3, h4, h5, h6⟩
  | some ce =>
    have hperm := find?_filter_perm s.inflight ce hfind h3
    have hsrcs : (↑(s.inflight.map (fun p => p.2.src)) : Multiset Nat)
        = ce.2.src ::ₘ ↑((s.inflight.filter (fun p => p.1 != c)).map (fun p => p.2.src)) := by
      have hmp := hperm.map (fun p => p.2.src)
      rw [Multiset.coe_eq_coe.mpr hmp]
      simp only [List.map_cons, Multiset.cons_coe]
    have hidsub : List.Sublist ((s.inflight.filter (fun p => p.1 != c)).map Prod.fst)
        (s.inflight.map Prod.fst) :=
      (List.filter_sublist _).map _
    have hids3 : ((s.inflight.filter (fun p => p.1 != c)).map Prod.fst).Nodup :=
      List.Sublist.nodup hidsub h3
    have hids4 : ∀ cid ∈ (s.inflight.filter (fun p => p.1 != c)).map Prod.fst,
        cid < s.nextCopy :=
      fun cid hcid => h4 cid (hidsub.subset hcid)
    match cause with
    | Cause.ok =>
      have h2s : (ackStep upRet c Cause.ok s).2 = { s with inflight := s.inflight.filter (fun p => p.1 != c), resolutions := s.resolutions ++ [(c, ce.2.src, true)], upstreamAcks := s.upstreamAcks ++ [(ce.2.src, none)] } := by
        simp [ackStep, hfind]
      rw [h2s]
      have hlive : liveSrcs { s with inflight := s.inflight.filter (fun p => p.1 != c), resolutions := s.resolutions ++ [(c, ce.2.src, true)], upstreamAcks := s.upstreamAcks ++ [(ce.2.src, none)] } = liveSrcs s := by
        simp only [liveSrcs, List.map_append, List.map_cons, List.map_nil]
        rw [hsrcs]
        simp only [← Multiset.coe_add, ← Multiset.cons_coe, Multiset.coe_singleton,
          ← Multiset.singleton_add]
        abel
      refine ⟨by rw [hlive]; exact h1, ?_, hids3, hids4, ?_, ?_⟩
      · rw [hlive]
        intro y hy
        show y < s.upstreamReads
        exact h2 y hy
      · show (s.upstreamAcks ++ [(ce.2.src, none)]).map Prod.fst
          = ((s.resolutions ++ [(c, ce.2.src, true)]).filter (fun r => r.2.2)).map (fun r => r.2.1)
        rw [List.map_append, List.filter_append, List.map_append, h5]
        rfl
      · intro a ha
        rcases List.mem_append.mp ha with h | h
        · exact h6 a h
        · simp only [List.mem_singleton] at h
          rw [h]
    | Cause.err m =>
      have h2s : (ackStep upRet c (Cause.err m) s).2 = { s with inflight := s.inflight.filter (fun p => p.1 != c), resolutions := s.resolutions ++ [(c, ce.2.src, false)], pending := s.pending ++ [ce.2] } := by
        simp [ackStep, hfind]
      rw [h2s]
      have hlive : liveSrcs { s with inflight := s.inflight.filter (fun p => p.1 != c), resolutions := s.resolutions ++ [(c, ce.2.src, false)], pending := s.pending ++ [ce.2] } = liveSrcs s := by
        simp only [liveSrcs, List.map_append, List.map_cons, List.map_nil]
        rw [hsrcs]
        simp only [← Multiset.coe_add, ← Multiset.cons_coe, Multiset.coe_singleton,
          ← Multiset.singleton_add]
        abel
      refine ⟨by rw [hlive]; exact h1, ?_, hids3, hids4, ?_, h6⟩
      · rw [hlive]
        intro y hy
        show y < s.upstreamReads
        exact h2 y hy
      · show s.upstreamAcks.map Prod.fst
          = ((s.resolutions ++ [(c, ce.2.src, false)]).filter (fun r => r.2.2)).map (fun r => r.2.1)
        rw [List.filter_append, List.map_append, h5]
        simp
    | Cause.batchErr b f =>
      have h2s : (ackStep upRet c (Cause.batchErr b f) s).2 = { s with inflight := s.inflight.filter (fun p => p.1 != c), resolutions := s.resolutions ++ [(c, ce.2.src, false)], pending := s.pending ++ [Entry.mk (collapseFailed b f) ce.2.src] } := by
        simp [ackStep, hfind]
      rw [h2s]
      have hlive : liveSrcs { s with inflight := s.inflight.filter (fun p => p.1 != c), resolutions := s.resolutions ++ [(c, ce.2.src, false)], pending := s.pending ++ [Entry.mk (collapseFailed b f) ce.2.src] } = liveSrcs s := by
        simp only [liveSrcs, List.map_append, List.map_cons, List.map_nil]
        rw [hsrcs]
        simp only [← Multiset.coe_add, ← Multiset.cons_coe, Multiset.coe_singleton,
          ← Multiset.singleton_add]
        abel
      refine ⟨by rw [hlive]; exact h1, ?_, hids3, hids4, ?_, h6⟩
      · rw [hlive]
        intro y hy
        show y < s.upstreamReads
        exact h2 y hy
      · show s.upstreamAcks.map Prod.fst
          = ((s.resolutions ++ [(c, ce.2.src, false)]).filter (fun r => r.2.2)).map (fun r => r.2.1)
        rw [List.filter_append, List.map_append, h5]
        simp

theorem presInv_runOps (upRet : Nat → Option String) :
    ∀ (ops : List POp) (s : PresState), PresInv s → PresInv (runOps upRet ops s) := by
  intro ops
  induction ops with
  | nil => intro s hs; exact hs
  | cons op rest ih =>
    intro s hs
    have hstep : PresInv (pstepF upRet s op) := by
      match op with
      | POp.read => exact presInv_read s hs
      | POp.ack c cause => exact presInv_ack upRet c cause s hs
    exact ih (pstepF upRet s op) hstep

theorem presInv_init (ups : List (List Part)) : PresInv (initState ups) := by
  refine ⟨?_, ?_, ?_, ?_, rfl, ?_⟩
  · simp [liveSrcs, initState]
  · intro y hy
    simp [liveSrcs, initState] at hy
  · simp [initState]
  · intro cid hcid
    simp [initState] at hcid
  · intro a ha
    simp [initState] at ha

/-- The final state of a serve / nack / re-serve / positive-ack trace on
a single upstream message, used to examine the upstream-ack record. -/
def nackThenAckState : PresState :=
  runOps (fun _ => none)
    [POp.read, POp.ack 0 (Cause.err "boom"), POp.read, POp.ack 1 Cause.ok]
    (initState [[Part.mk "m" 0]])

/-- Counterexample to claim C4 as stated: in the nack-then-ack trace the
upstream ack for read 0 is invoked with nil although served copy 0 of
that read was nacked, never positively acked — so "invoked with nil
exactly when all served copies have been positively acked" fails in the
only-if direction (the behaviour pinned by TestAsyncPreserverBuffer,
where upstream acks fire after earlier copies were nacked). -/
theorem autoRetry_upstream_ack_cex :
    ¬ (∀ a ∈ nackThenAckState.upstreamAcks, a.2 = none →
        ∀ r ∈ nackThenAckState.resolutions, r.2.1 = a.1 → r.2.2 = true) := by
  decide

/-- Claim C4, amended.  Along every trace from an initial state the
upstream ack callback is invoked at most once per upstream read; it is
only ever invoked with nil; its invocations correspond exactly to the
positive resolutions of served copies (a copy ack with nil fires it,
nacked copies are re-queued instead of acked upstream); and the value
returned by the upstream ack is returned to the caller of the buffer's
ack callback. -/
theorem autoRetry_upstream_ack_amended :
    ∀ (upRet : Nat → Option String) (ups : List (List Part)) (ops : List POp),
      ((runOps upRet ops (initState ups)).upstreamAcks.map Prod.fst).Nodup
      ∧ (∀ a ∈ (runOps upRet ops (initState ups)).upstreamAcks, a.2 = none)
      ∧ ((runOps upRet ops (initState ups)).upstreamAcks.map Prod.fst
          = (((runOps upRet ops (initState ups)).resolutions.filter
              (fun r => r.2.2)).map (fun r => r.2.1)))
      ∧ (∀ (s : PresState) (c : Nat) (e : Entry),
          s.inflight.find? (fun p => p.1 == c) = some (c, e) →
          (ackStep upRet c Cause.ok s).1 = upRet e.src) := by
  intro upRet ups ops
  have hinv := presInv_runOps upRet ops (initState ups) (presInv_init ups)
  obtain ⟨h1, _, _, _, h5, h6⟩ := hinv
  refine ⟨?_, h6, h5, ?_⟩
  · have hnod : (liveSrcs (runOps upRet ops (initState ups))).Nodup := h1
    simp only [liveSrcs] at hnod
    rw [Multiset.nodup_add] at hnod
    have hnod2 := (Multiset.nodup_add.mp hnod.1).1
    exact Multiset.coe_nodup.mp hnod2
  · intro s c e h
    simp [ackStep, h]

/-- Witness for the amended C4 on a concrete trace: read, nack, re-read
and positively ack one message; the upstream ack record is the single
nil invocation for read 0, matching exactly the one positive resolution,
and a concrete positive ack returns the upstream ack's return value. -/
theorem autoRetry_upstream_ack_amended_witness :
    nackThenAckState.upstreamAcks = [(0, none)]
    ∧ (nackThenAckState.upstreamAcks.map Prod.fst).Nodup
    ∧ (∀ a ∈ nackThenAckState.upstreamAcks, a.2 = none)
    ∧ (ackStep (fun _ => some "broker says no") 5 Cause.ok
        { upstream := [], upstreamReads := 1, pending := [],
          inflight := [(5, Entry.mk [Part.mk "m" 0] 0)], nextCopy := 6,
          upstreamAcks := [], resolutions := [] }).1 = some "broker says no" := by
  have h := autoRetry_upstream_ack_amended (fun _ => none) [[Part.mk "m" 0]]
    [POp.read, POp.ack 0 (Cause.err "boom"), POp.read, POp.ack 1 Cause.ok]
  refine ⟨by decide, h.1, h.2.1, ?_⟩
  have h4 := (autoRetry_upstream_ack_amended (fun _ => some "broker says no") [] []).2.2.2
    { upstream := [], upstreamReads := 1, pending := [],
      inflight := [(5, Entry.mk [Part.mk "m" 0] 0)], nextCopy := 6,
      upstreamAcks := [], resolutions := [] }
    5 (Entry.mk [Part.mk "m" 0] 0) (by decide)
  rw [h4]

/-! ### Retry backoff under continuous nack (claim C5) -/

/-- Modelled from the spec: the retry backoff schedule of the Auto-Retry
Nack Buffer in microseconds, "initial 500 µs doubling, capped at low
ms" (spec 4.C); `cap` is the cap in microseconds and `k` counts the
consecutive retries. -/
def retryDelay (cap : Nat) (k : Nat) : Nat := min (500 * 2 ^ k) cap

/-- Cumulative backoff time in microseconds before the (n+1)-th read of
the tight read-then-nack loop returns: the first read pulls a fresh
message with no delay, and the k-th retry read waits delay `d k` (the
delay yields to the deadline, so a read completes within the deadline
exactly when its cumulative delay does not exceed it). -/
def delaySum (d : Nat → Nat) : Nat → Nat
  | 0 => 0
  | n + 1 => delaySum d n + d n

/-- Number of reads among the first `bound` reads of the tight nack loop
that complete within `deadline` microseconds of cumulative delay. -/
def itersCompleted (d : Nat → Nat) (deadline bound : Nat) : Nat :=
  ((List.range bound).filter (fun i => delaySum d i ≤ deadline)).length

theorem delaySum_le_delaySum (d1 d2 : Nat → Nat) (h : ∀ k, d1 k ≤ d2 k) :
    ∀ n, delaySum d1 n ≤ delaySum d2 n := by
  intro n
  induction n with
  | zero => exact Nat.le_refl 0
  | succ n ih => exact Nat.add_le_add ih (h n)

/-- Counterexample to claim C5 as stated: with the spec's schedule
(initial 500 µs, doubling, capped at 8 ms — a "low milliseconds" cap)
all of the first 10 reads of the tight nack loop complete within the
500 ms deadline, because the nine retry delays before the tenth read sum
to only 47.5 ms; so the claimed bound of fewer than 10 iterations does
not follow from that schedule. -/
theorem autoRetry_backoff_cex :
    itersCompleted (retryDelay 8000) 500000 10 = 10
      ∧ delaySum (retryDelay 8000) 9 = 47500 := by
  constructor <;> decide

/-- Claim C5, amended.  The backoff model does bound the tight nack
loop: fewer than 10 read-then-nack iterations complete within the 500 ms
deadline whenever the nine retry delays preceding the tenth read sum to
more than 500 ms — which requires per-retry delays far above a
low-millisecond cap (for instance a constant 500 ms delay); the spec's
500 µs-doubling schedule sums to at most 255.5 ms over those nine
retries for every cap, and therefore admits all 10 iterations. -/
theorem autoRetry_backoff_amended :
    (∀ d : Nat → Nat, 500000 < delaySum d 9 → itersCompleted d 500000 10 < 10)
      ∧ (∀ cap, delaySum (retryDelay cap) 9 ≤ 255500) := by
  constructor
  · intro d h
    by_contra hc
    push_neg at hc
    have hle : itersCompleted d 500000 10 ≤ 10 := by
      have hlen := List.length_filter_le
        (fun i => decide (delaySum d i ≤ 500000)) (List.range 10)
      simpa [itersCompleted] using hlen
    have heq : itersCompleted d 500000 10 = 10 := Nat.le_antisymm hle hc
    have hsub : List.Sublist
        ((List.range 10).filter (fun i => delaySum d i ≤ 500000)) (List.range 10) :=
      List.filter_sublist _
    have hfull : (List.range 10).filter (fun i => delaySum d i ≤ 500000)
        = List.range 10 := by
      refine hsub.eq_of_length ?_
      have : ((List.range 10).filter (fun i => delaySum d i ≤ 500000)).length = 10 := by
        simpa [itersCompleted] using heq
      simpa using this
    have h9 : (9 : Nat) ∈ (List.range 10).filter (fun i => delaySum d i ≤ 500000) := by
      rw [hfull]; decide
    have h9p := List.of_mem_filter h9
    simp only [decide_eq_true_eq] at h9p
    omega
  · intro cap
    have hmono := delaySum_le_delaySum (retryDelay cap) (fun k => 500 * 2 ^ k)
      (fun k => Nat.min_le_left _ _) 9
    have hval : delaySum (fun k => 500 * 2 ^ k) 9 = 255500 := by decide
    omega

/-- Witness for the amended C5: a constant 500 ms retry delay (the
conservative default schedule) makes the nine retry delays sum to
4.5 s, past the 500 ms deadline, so fewer than 10 iterations complete. -/
theorem autoRetry_backoff_amended_witness :
    500000 < delaySum (fun _ => 500000) 9
      ∧ itersCompleted (fun _ => 500000) 500000 10 < 10 :=
  ⟨by decide, autoRetry_backoff_amended.1 (fun _ => 500000) (by decide)⟩

/-! ## Async Sink Driver (output.AsyncWriter, embedded from the source)

The writer itself is effectful; its control flow is embedded by
scripting the outcomes of the effectful calls: `connects` scripts each
initConnection call (true = connected; false = the loop gave up because
of shutdown-at-leisure or ErrTypeClosed) and `writes` scripts each
WriteWithContext call.  `none` results model the loop still running when
its script is exhausted. -/

/-- Result of one WriteWithContext call (component.ErrNotConnected and
component.ErrTypeClosed are the two specially handled errors). -/
inductive WriteRes where
  | ok
  | notConnected
  | typeClosed
  | other (e : String)
deriving DecidableEq

/-- The error value a write result carries when the transaction is
acked with it (nil for a successful write). -/
def WriteRes.errString : WriteRes → Option String
  | WriteRes.ok => none
  | WriteRes.notConnected => some "not connected"
  | WriteRes.typeClosed => some "type was closed"
  | WriteRes.other e => some e

/-- How the worker disposed of one transaction: acked exactly once with
a cause, or exited the worker loop without acking. -/
inductive TxOutcome where
  | acked (e : Option String)
  | exitNoAck
deriving DecidableEq

/-- Embedding of the retry loop inside AsyncWriter.loop/connectLoop
(part_002 lines 222-235): repeatedly initConnection then retry the
write; a failed initConnection yields ErrTypeClosed; a write result
other than ErrNotConnected is returned.  Returns the final write result
together with the number of writes and of initConnection attempts
consumed. -/
def connectLoopRetry : List Bool → List WriteRes → Option (WriteRes × Nat × Nat)
  | [], _ => none
  | false :: _, _ => some (WriteRes.typeClosed, 0, 1)
  | true :: _, [] => none
  | true :: cs, w :: ws =>
    if w = WriteRes.notConnected then
      (connectLoopRetry cs ws).map (fun r => (r.1, r.2.1 + 1, r.2.2 + 1))
    else some (w, 1, 1)

/-- Embedding of AsyncWriter.loop/connectLoop (part_002 lines 205-236):
`connectedFlag` is the isConnected value observed after acquiring the
reconnect mutex; when a peer already restored the connection the worker
first re-attempts its write and skips reconnection unless that write
returns ErrNotConnected. -/
def connectLoop (connectedFlag : Bool) (connects : List Bool) (writes : List WriteRes) :
    Option (WriteRes × Nat × Nat) :=
  if connectedFlag then
    match writes with
    | [] => none
    | w :: ws =>
      if w = WriteRes.notConnected then
        (connectLoopRetry connects ws).map (fun r => (r.1, r.2.1 + 1, r.2.2))
      else some (w, 1, 0)
  else
    connectLoopRetry connects writes

/-- Embedding of one iteration of AsyncWriter.loop/writerLoop for a
single transaction (part_002 lines 253-291): write; on ErrNotConnected
run connectLoop (a sequential worker observes isConnected = 0 there,
having just stored it); on ErrTypeClosed exit without acking; otherwise
ack exactly once with the final error.  Returns the outcome and the
number of write attempts consumed. -/
def runTransaction (connects : List Bool) (writes : List WriteRes) :
    Option (TxOutcome × Nat) :=
  match writes with
  | [] => none
  | w :: ws =>
    let afterReconnect : Option (WriteRes × Nat) :=
      if w = WriteRes.notConnected then
        (connectLoop false connects ws).map (fun r => (r.1, r.2.1 + 1))
      else some (w, 1)
    afterReconnect.map fun r =>
      if r.1 = WriteRes.typeClosed then (TxOutcome.exitNoAck, r.2)
      else (TxOutcome.acked r.1.errString, r.2)

/-- Claim C6.  A write completing with an error other than
ErrNotConnected and ErrTypeClosed acks the transaction exactly once with
that error and performs no further write: directly the single write is
the only attempt whatever results the sink would have produced next, and
through the reconnect loop the transaction is acked with the error the
final re-attempted write returned. -/
theorem asyncWriter_ack_error_no_retry :
    (∀ (connects : List Bool) (rest : List WriteRes) (e : String),
      runTransaction connects (WriteRes.other e :: rest)
        = some (TxOutcome.acked (some e), 1))
    ∧ (∀ (connects : List Bool) (ws : List WriteRes) (e : String) (n k : Nat),
        connectLoop false connects ws = some (WriteRes.other e, n, k) →
        runTransaction connects (WriteRes.notConnected :: ws)
          = some (TxOutcome.acked (some e), n + 1)) := by
  constructor
  · intro connects rest e
    simp [runTransaction, WriteRes.errString]
  · intro connects ws e n k h
    simp [runTransaction, h, WriteRes.errString]

/-- Witness for C6: a sink that is disconnected once, reconnects, and
then fails with a business error acks the transaction once with that
error after two write attempts. -/
theorem asyncWriter_ack_error_no_retry_witness :
    runTransaction [true] [WriteRes.notConnected, WriteRes.other "boom"]
      = some (TxOutcome.acked (some "boom"), 2)
    ∧ runTransaction [] [WriteRes.other "boom", WriteRes.ok]
      = some (TxOutcome.acked (some "boom"), 1) := by
  constructor
  · have h := asyncWriter_ack_error_no_retry.2 [true] [WriteRes.other "boom"] "boom" 1 1
      (by decide)
    simpa using h
  · exact asyncWriter_ack_error_no_retry.1 [] [WriteRes.ok] "boom"

/-- Claim C7.  A write (or reconnect-loop re-attempt, or a reconnect
attempt cut short by shutdown) returning ErrTypeClosed makes the worker
exit its loop without invoking the transaction's ack callback. -/
theorem asyncWriter_typeClosed_no_ack :
    (∀ (connects : List Bool) (rest : List WriteRes),
      runTransaction connects (WriteRes.typeClosed :: rest)
        = some (TxOutcome.exitNoAck, 1))
    ∧ (∀ (connects : List Bool) (ws : List WriteRes) (n k : Nat),
        connectLoop false connects ws = some (WriteRes.typeClosed, n, k) →
        runTransaction connects (WriteRes.notConnected :: ws)
          = some (TxOutcome.exitNoAck, n + 1))
    ∧ (∀ (cs : List Bool) (ws : List WriteRes),
        runTransaction (false :: cs) (WriteRes.notConnected :: ws)
          = some (TxOutcome.exitNoAck, 1)) := by
  refine ⟨?_, ?_, ?_⟩
  · intro connects rest
    simp [runTransaction]
  · intro connects ws n k h
    simp [runTransaction, h]
  · intro cs ws
    simp [runTransaction, connectLoop, connectLoopRetry]

/-- Witness for C7: after one reconnection the re-attempted write
returns ErrTypeClosed and the worker exits without acking. -/
theorem asyncWriter_typeClosed_no_ack_witness :
    connectLoop false [true] [WriteRes.typeClosed]
      = some (WriteRes.typeClosed, 1, 1)
    ∧ runTransaction [true] [WriteRes.notConnected, WriteRes.typeClosed]
      = some (TxOutcome.exitNoAck, 2) := by
  refine ⟨by decide, ?_⟩
  have h := asyncWriter_typeClosed_no_ack.2.1 [true] [WriteRes.typeClosed] 1 1 (by decide)
  simpa using h

/-- Embedding of AsyncWriter.injectSpans (part_002 lines 112-143).  The
effectful collaborators are scripted: `spanMaps` gives each span's
TextMap result (none = TextMap failure) and `mapOnto` the
injectTracingMap MapOnto result for an index (none = mapping failure).
When no injectTracingMap is configured, or there are fewer spans than
parts, the batch is returned unchanged; a TextMap or MapOnto failure at
an index keeps the original part at that index. -/
def injectSpans (hasInjectMap : Bool) (mapOnto : Nat → Part → String → Option Part)
    (msg : List Part) (spanMaps : List (Option String)) : List Part :=
  if hasInjectMap = false ∨ spanMaps.length < msg.length then msg
  else
    msg.enum.map fun ip =>
      match (spanMaps[ip.1]?).bind id with
      | none => ip.2
      | some sm =>
        match mapOnto ip.1 ip.2 sm with
        | none => ip.2
        | some p2 => p2

/-- Claim C8.  injectSpans always returns a batch of the original
length (the transaction is never failed, dropped or retried over span
injection — the function is total and the worker writes its result
unconditionally), and at every index where the span TextMap or the
injectTracingMap mapping fails the output carries the original part. -/
theorem asyncWriter_inject_spans_preserves :
    (∀ (hasInjectMap : Bool) (mapOnto : Nat → Part → String → Option Part)
       (msg : List Part) (spanMaps : List (Option String)),
      (injectSpans hasInjectMap mapOnto msg spanMaps).length = msg.length)
    ∧ (∀ (mapOnto : Nat → Part → String → Option Part) (msg : List Part)
         (spanMaps : List (Option String)) (i : Nat) (p : Part),
        msg.length ≤ spanMaps.length → msg[i]? = some p →
        (spanMaps[i]?).bind id = none →
        (injectSpans true mapOnto msg spanMaps)[i]? = some p)
    ∧ (∀ (mapOnto : Nat → Part → String → Option Part) (msg : List Part)
         (spanMaps : List (Option String)) (i : Nat) (p : Part) (sm : String),
        msg.length ≤ spanMaps.length → msg[i]? = some p →
        (spanMaps[i]?).bind id = some sm → mapOnto i p sm = none →
        (injectSpans true mapOnto msg spanMaps)[i]? = some p) := by
  refine ⟨?_, ?_, ?_⟩
  · intro hasInjectMap mapOnto msg spanMaps
    by_cases hg : hasInjectMap = false ∨ spanMaps.length < msg.length
    · simp [injectSpans, hg]
    · simp [injectSpans, hg]
  · intro mapOnto msg spanMaps i p hlen hx hbind
    have hg : ¬ (true = false ∨ spanMaps.length < msg.length) := by
      push_neg
      exact ⟨by decide, hlen⟩
    have hbind2 : (spanMaps[i]?.bind fun a => a) = none := hbind
    rw [injectSpans, if_neg hg]
    simp [List.getElem?_map, List.getElem?_enum, hx, hbind2]
  · intro mapOnto msg spanMaps i p sm hlen hx hbind hmap
    have hg : ¬ (true = false ∨ spanMaps.length < msg.length) := by
      push_neg
      exact ⟨by decide, hlen⟩
    have hbind2 : (spanMaps[i]?.bind fun a => a) = some sm := hbind
    rw [injectSpans, if_neg hg]
    simp [List.getElem?_map, List.getElem?_enum, hx, hbind2, hmap]

/-- Witness for C8: a two-part batch whose second span mapping fails
keeps its length and carries the original second part. -/
theorem asyncWriter_inject_spans_preserves_witness :
    (injectSpans true (fun _ p _ => some (Part.mk (p.contents ++ "+span") p.token))
        [Part.mk "a" 0, Part.mk "b" 1] [some "sp0", none]).length = 2
    ∧ (injectSpans true (fun _ p _ => some (Part.mk (p.contents ++ "+span") p.token))
        [Part.mk "a" 0, Part.mk "b" 1] [some "sp0", none])[1]? = some (Part.mk "b" 1) := by
  constructor
  · exact asyncWriter_inject_spans_preserves.1 true
      (fun _ p _ => some (Part.mk (p.contents ++ "+span") p.token))
      [Part.mk "a" 0, Part.mk "b" 1] [some "sp0", none]
  · exact asyncWriter_inject_spans_preserves.2.1
      (fun _ p _ => some (Part.mk (p.contents ++ "+span") p.token))
      [Part.mk "a" 0, Part.mk "b" 1] [some "sp0", none] 1 (Part.mk "b" 1)
      (by decide) (by decide) (by decide)

/-! ### Reconnect exclusivity (claim C9) -/

/-- Phase of an Async Sink Driver writer worker with respect to the
reconnect mutex (connectMut in part_002 line 204): running outside the
reconnect protocol, blocked on Lock, or holding the mutex and executing
the reconnection sequence. -/
inductive WPhase where
  | outside
  | waiting
  | reconnecting
deriving DecidableEq

/-- State of a pool of `n` writer workers sharing one reconnect mutex:
each worker's phase plus the current mutex holder. -/
structure PoolState (n : Nat) where
  phase : Fin n → WPhase
  holder : Option (Fin n)

def initPool (n : Nat) : PoolState n :=
  PoolState.mk (fun _ => WPhase.outside) none

/-- Interleaving semantics of the worker pool around the reconnect
mutex: a worker observing ErrNotConnected requests the mutex; Lock
succeeds only while no worker holds it; Unlock releases it.  This is
the Go sync.Mutex discipline of connectLoop. -/
inductive PoolStep {n : Nat} : PoolState n → PoolState n → Prop where
  | request (i : Fin n) (s : PoolState n) :
      s.phase i = WPhase.outside →
      PoolStep s (PoolState.mk (Function.update s.phase i WPhase.waiting) s.holder)
  | acquire (i : Fin n) (s : PoolState n) :
      s.phase i = WPhase.waiting → s.holder = none →
      PoolStep s (PoolState.mk (Function.update s.phase i WPhase.reconnecting) (some i))
  | release (i : Fin n) (s : PoolState n) :
      s.phase i = WPhase.reconnecting →
      PoolStep s (PoolState.mk (Function.update s.phase i WPhase.outside) none)

/-- States reachable from the initial pool state. -/
inductive PoolReach {n : Nat} : PoolState n → Prop where
  | init : PoolReach (initPool n)
  | step {s t : PoolState n} : PoolReach s → PoolStep s t → PoolReach t

/-- A worker is in the reconnection sequence exactly when it holds the
reconnect mutex. -/
def MutexInv {n : Nat} (s : PoolState n) : Prop :=
  ∀ i : Fin n, s.phase i = WPhase.reconnecting ↔ s.holder = some i

theorem mutexInv_init (n : Nat) : MutexInv (initPool n) := by
  intro i
  constructor
  · intro h
    exact absurd h (by simp [initPool])
  · intro h
    exact absurd h (by simp [initPool])

theorem mutexInv_step {n : Nat} {s t : PoolState n} (hs : MutexInv s)
    (hstep : PoolStep s t) : MutexInv t := by
  cases hstep with
  | request i s hi =>
    intro j
    by_cases hji : j = i
    · subst hji
      simp only [Function.update_same]
      constructor
      · intro h; exact absurd h (by simp)
      · intro h
        have := (hs j).mpr h
        rw [hi] at this
        exact absurd this (by simp)
    · simp only [Function.update_noteq hji]
      exact hs j
  | acquire i s hi hnone =>
    intro j
    by_cases hji : j = i
    · subst hji
      simp [Function.update_same]
    · simp only [Function.update_noteq hji]
      constructor
      · intro h
        have := (hs j).mp h
        rw [hnone] at this
        exact absurd this (by simp)
      · intro h
        have hij : i = j := Option.some.inj h
        exact absurd hij.symm hji
  | release i s hi =>
    intro j
    by_cases hji : j = i
    · subst hji
      simp only [Function.update_same]
      constructor
      · intro h; exact absurd h (by simp)
      · intro h; exact absurd h (by simp)
    · simp only [Function.update_noteq hji]
      constructor
      · intro h
        have h1 := (hs j).mp h
        have h2 := (hs i).mp hi
        rw [h2] at h1
        exact absurd (Option.some.inj h1).symm hji
      · intro h; exact absurd h (by simp)

theorem mutexInv_reach {n : Nat} {s : PoolState n} (h : PoolReach s) : MutexInv s := by
  induction h with
  | init => exact mutexInv_init n
  | step _ hstep ih => exact mutexInv_step ih hstep

/-- Claim C9.  In every reachable pool state at most one worker is
executing the reconnection sequence (reconnect-mutex exclusivity), and a
worker entering the reconnect protocol after a peer restored the
connection (isConnected observed as 1 under the mutex) first re-attempts
its write and, whenever that write does not return ErrNotConnected,
returns it with zero reconnection attempts. -/
theorem asyncWriter_reconnect_exclusive :
    (∀ (n : Nat) (s : PoolState n), PoolReach s →
      ∀ i j : Fin n, s.phase i = WPhase.reconnecting →
        s.phase j = WPhase.reconnecting → i = j)
    ∧ (∀ (connects : List Bool) (w : WriteRes) (ws : List WriteRes),
        w ≠ WriteRes.notConnected →
        connectLoop true connects (w :: ws) = some (w, 1, 0)) := by
  constructor
  · intro n s hreach i j hi hj
    have hinv := mutexInv_reach hreach
    have h1 := (hinv i).mp hi
    have h2 := (hinv j).mp hj
    rw [h1] at h2
    exact Option.some.inj h2
  · intro connects w ws hw
    simp [connectLoop, hw]

/-- Witness for C9 on two workers: after worker 0 requests and acquires
the mutex it is reconnecting, and exclusivity applied at that reachable
state gives 0 = 0; a worker finding the connection restored returns its
successful write with zero reconnection attempts. -/
theorem asyncWriter_reconnect_exclusive_witness :
    ((0 : Fin 2) = (0 : Fin 2))
    ∧ connectLoop true [true, true] [WriteRes.ok, WriteRes.typeClosed]
      = some (WriteRes.ok, 1, 0) := by
  constructor
  · have hreach1 : PoolReach (PoolState.mk
        (Function.update (initPool 2).phase 0 WPhase.waiting) (initPool 2).holder) :=
      PoolReach.step PoolReach.init (PoolStep.request 0 (initPool 2) rfl)
    have hreach2 : PoolReach (PoolState.mk
        (Function.update (Function.update (initPool 2).phase 0 WPhase.waiting) 0
          WPhase.reconnecting) (some 0)) :=
      PoolReach.step hreach1 (PoolStep.acquire 0 _ (by simp [Function.update_same]) rfl)
    exact asyncWriter_reconnect_exclusive.1 2 _ hreach2 0 0
      (by simp [Function.update_same]) (by simp [Function.update_same])
  · exact asyncWriter_reconnect_exclusive.2 [true, true] WriteRes.ok
      [WriteRes.typeClosed] (by decide)

/-! ## Branch processor (pure.Branch, embedded from processor_branch.go) -/

/-- A branch-processor message part: payload plus the per-part error
slot (processor_branch.go works over message.Part with ErrorGet /
ErrorSet). -/
structure BPart where
  data : String
  perr : Option String
deriving DecidableEq

/-- Embedding of the inner while loop of alignBranchResult
(processor_branch.go line 547): starting from cursor `s`, advance while
skippedOrFailed[sIndex] == i + sIndex; the fuel argument bounds the
loop by the remaining list length, matching the sIndex < len guard. -/
def advanceIdxF (sof : List Nat) (i : Nat) : Nat → Nat → Nat
  | 0, s => s
  | fuel + 1, s =>
    match sof[s]? with
    | some v => if v = i + s then advanceIdxF sof i fuel (s + 1) else s
    | none => s

def advanceIdx (sof : List Nat) (i s : Nat) : Nat :=
  advanceIdxF sof i (sof.length - s) s

/-- Embedding of the assignment loop of alignBranchResult
(processor_branch.go lines 545-551): for each result part advance the
skip cursor and write the part at position i + sIndex of the
nil-initialised result array. -/
def alignGo (sof : List Nat) : List BPart → Nat → Nat → List (Option BPart) → List (Option BPart)
  | [], _, _, arr => arr
  | r :: rs, i, s, arr =>
    let s2 := advanceIdx sof i s
    alignGo sof rs (i + 1) s2 (arr.set (i + s2) (some r))

/-- Embedding of alignBranchResult (processor_branch.go lines 516-555):
flatten the child-processor result batches, sort the union of skipped
and failed indices (sort.Ints, modelled by insertion sort on ≤), fail
when counts do not line up, and otherwise re-insert nils at the
skipped-or-failed indices. -/
def alignBranchResult (len : Nat) (skipped failed : List Nat)
    (result : List (List BPart)) : Except String (List (Option BPart)) :=
  let resMsgParts := result.flatten
  let skippedOrFailed := List.insertionSort (· ≤ ·) (skipped ++ failed)
  if resMsgParts.length + skippedOrFailed.length ≠ len then
    Except.error ("message count from branch processors does not match request, started with "
      ++ toString (resMsgParts.length + skippedOrFailed.length)
      ++ " messages, finished with " ++ toString len)
  else if skippedOrFailed.isEmpty then Except.ok (resMsgParts.map some)
  else Except.ok (alignGo skippedOrFailed resMsgParts 0 0 (List.replicate len none))

/-- Specification-side alignment, following the spec's words: walk the
`n` positions starting at `j`, re-inserting nil at every
skipped-or-failed index and consuming the child-processor results in
order at the remaining positions. -/
def alignSpecFrom (sof : List Nat) : Nat → Nat → List BPart → List (Option BPart)
  | _, 0, _ => []
  | j, n + 1, res =>
    if j ∈ sof then none :: alignSpecFrom sof (j + 1) n res
    else
      match res with
      | [] => none :: alignSpecFrom sof (j + 1) n []
      | r :: rs => some r :: alignSpecFrom sof (j + 1) n rs

/-- The entries of an aligned result at the positions (numbered from
`j`) that are not skipped-or-failed, in order. -/
def nonSofEntries (sof : List Nat) : Nat → List (Option BPart) → List (Option BPart)
  | _, [] => []
  | j, x :: xs =>
    if j ∈ sof then nonSofEntries sof (j + 1) xs
    else x :: nonSofEntries sof (j + 1) xs

/-- Number of skipped-or-failed indices among positions j, …, j+n-1. -/
def countSofIn (sof : List Nat) (j n : Nat) : Nat :=
  ((List.range' j n).filter (fun v => v ∈ sof)).length

theorem advanceIdxF_spec (sof : List Nat) (i : Nat) :
    ∀ (fuel s : Nat), sof.length - s ≤ fuel → s ≤ sof.length →
      s ≤ advanceIdxF sof i fuel s
      ∧ advanceIdxF sof i fuel s ≤ sof.length
      ∧ (∀ k, s ≤ k → k < advanceIdxF sof i fuel s → sof[k]? = some (i + k))
      ∧ (∀ v, sof[advanceIdxF sof i fuel s]? = some v → v ≠ i + advanceIdxF sof i fuel s) := by
  intro fuel
  induction fuel with
  | zero =>
    intro s hfuel hs
    have hlen : sof.length ≤ s := by omega
    refine ⟨Nat.le_refl s, hs, ?_, ?_⟩
    · intro k h1 h2
      simp only [advanceIdxF] at h2
      omega
    · intro v hv
      simp only [advanceIdxF] at hv
      rw [List.getElem?_eq_none hlen] at hv
      exact Option.noConfusion hv
  | succ fuel ih =>
    intro s hfuel hs
    match hsv : sof[s]? with
    | none =>
      have heq : advanceIdxF sof i (fuel + 1) s = s := by
        simp [advanceIdxF, hsv]
      rw [heq]
      refine ⟨Nat.le_refl s, hs, ?_, ?_⟩
      · intro k h1 h2; omega
      · intro v hv
        rw [hsv] at hv
        exact Option.noConfusion hv
    | some v =>
      have hslen : s < sof.length := by
        by_contra hc
        rw [List.getElem?_eq_none (Nat.le_of_not_lt hc)] at hsv
        exact Option.noConfusion hsv
      by_cases hvi : v = i + s
      · have heq : advanceIdxF sof i (fuel + 1) s = advanceIdxF sof i fuel (s + 1) := by
          simp [advanceIdxF, hsv, hvi]
        rw [heq]
        obtain ⟨ih1, ih2, ih3, ih4⟩ := ih (s + 1) (by omega) (by omega)
        refine ⟨by omega, ih2, ?_, ih4⟩
        intro k h1 h2
        by_cases hks : k = s
        · subst hks
          rw [hsv, hvi]
        · exact ih3 k (by omega) h2
      · have heq : advanceIdxF sof i (fuel + 1) s = s := by
          simp [advanceIdxF, hsv, hvi]
        rw [heq]
        refine ⟨Nat.le_refl s, hs, ?_, ?_⟩
        · intro k h1 h2; omega
        · intro w hw
          rw [hsv] at hw
          rw [← Option.some.inj hw]
          exact hvi

theorem advanceIdx_spec (sof : List Nat) (i s : Nat) (hs : s ≤ sof.length) :
    s ≤ advanceIdx sof i s
      ∧ advanceIdx sof i s ≤ sof.length
      ∧ (∀ k, s ≤ k → k < advanceIdx sof i s → sof[k]? = some (i + k))
      ∧ (∀ v, sof[advanceIdx sof i s]? = some v → v ≠ i + advanceIdx sof i s) :=
  advanceIdxF_spec sof i (sof.length - s) s (Nat.le_refl _) hs

theorem sorted_getElem?_lt {sof : List Nat} (hsorted : List.Sorted (· < ·) sof)
    {a b x y : Nat} (ha : sof[a]? = some x) (hb : sof[b]? = some y) (hab : a < b) :
    x < y := by
  obtain ⟨ha1, ha2⟩ := List.getElem?_eq_some_iff.mp ha
  obtain ⟨hb1, hb2⟩ := List.getElem?_eq_some_iff.mp hb
  have := List.Sorted.rel_get_of_lt hsorted
    (Fin.mk_lt_mk.mpr hab : (⟨a, ha1⟩ : Fin sof.length) < ⟨b, hb1⟩)
  simpa [List.get_eq_getElem, ha2, hb2] using this

theorem alignSpecFrom_nil (sof : List Nat) :
    ∀ (n j : Nat), alignSpecFrom sof j n [] = List.replicate n none := by
  intro n
  induction n with
  | zero => intro j; rfl
  | succ n ih =>
    intro j
    by_cases hj : j ∈ sof
    · simp [alignSpecFrom, hj, ih, List.replicate_succ]
    · simp [alignSpecFrom, hj, ih, List.replicate_succ]

theorem alignSpecFrom_length (sof : List Nat) :
    ∀ (n j : Nat) (res : List BPart), (alignSpecFrom sof j n res).length = n := by
  intro n
  induction n with
  | zero => intro j res; rfl
  | succ n ih =>
    intro j res
    by_cases hj : j ∈ sof
    · simp [alignSpecFrom, hj, ih]
    · match res with
      | [] => simp [alignSpecFrom, hj, ih]
      | r :: rs => simp [alignSpecFrom, hj, ih]

theorem alignSpecFrom_skip (sof : List Nat) :
    ∀ (t j n : Nat) (res : List BPart), (∀ u, u < t → (j + u) ∈ sof) →
      alignSpecFrom sof j (t + n) res
        = List.replicate t none ++ alignSpecFrom sof (j + t) n res := by
  intro t
  induction t with
  | zero => intro j n res _; simp
  | succ t ih =>
    intro j n res hmem
    have hj : j ∈ sof := by simpa using hmem 0 (by omega)
    have harith : t + 1 + n = (t + n) + 1 := by omega
    rw [harith]
    simp only [alignSpecFrom, if_pos hj]
    rw [ih (j + 1) n res (fun u hu => by
      have := hmem (u + 1) (by omega)
      have harith2 : j + (u + 1) = j + 1 + u := by omega
      rw [harith2] at this
      exact this)]
    have harith3 : j + 1 + t = j + (t + 1) := by omega
    rw [harith3, List.replicate_succ]
    simp

theorem alignSpecFrom_sof_none (sof : List Nat) :
    ∀ (n j t : Nat) (res : List BPart), t < n → (j + t) ∈ sof →
      (alignSpecFrom sof j n res)[t]? = some none := by
  intro n
  induction n with
  | zero => intro j t res ht _; omega
  | succ n ih =>
    intro j t res ht hmem
    match t with
    | 0 =>
      have hj : j ∈ sof := by simpa using hmem
      simp [alignSpecFrom, hj]
    | Nat.succ t =>
      have hmem2 : (j + 1) + t ∈ sof := by
        have harith : j + (t + 1) = (j + 1) + t := by omega
        rw [harith] at hmem
        exact hmem
      by_cases hj : j ∈ sof
      · simp only [alignSpecFrom, if_pos hj]
        simpa using ih (j + 1) t res (by omega) hmem2
      · simp only [alignSpecFrom, if_neg hj]
        match res with
        | [] => simpa using ih (j + 1) t [] (by omega) hmem2
        | r :: rs => simpa using ih (j + 1) t rs (by omega) hmem2

theorem countSofIn_le (sof : List Nat) (j n : Nat) : countSofIn sof j n ≤ n := by
  have h := List.length_filter_le (fun v => decide (v ∈ sof)) (List.range' j n)
  simpa [countSofIn] using h

theorem alignSpecFrom_extract (sof : List Nat) :
    ∀ (n j : Nat) (res : List BPart), n = res.length + countSofIn sof j n →
      nonSofEntries sof j (alignSpecFrom sof j n res) = res.map some := by
  intro n
  induction n with
  | zero =>
    intro j res hcount
    have : res.length = 0 := by
      have := countSofIn_le sof j 0
      omega
    rw [List.length_eq_zero.mp this]
    rfl
  | succ n ih =>
    intro j res hcount
    have hcsplit : countSofIn sof j (n + 1)
        = (if j ∈ sof then 1 else 0) + countSofIn sof (j + 1) n := by
      simp only [countSofIn, List.range'_succ j n 1, List.filter_cons]
      by_cases hj : j ∈ sof
      · simp [hj]; omega
      · simp [hj]
    by_cases hj : j ∈ sof
    · rw [hcsplit, if_pos hj] at hcount
      simp only [alignSpecFrom, if_pos hj, nonSofEntries, if_pos hj]
      exact ih (j + 1) res (by omega)
    · rw [hcsplit, if_neg hj] at hcount
      match res with
      | [] =>
        have := countSofIn_le sof (j + 1) n
        simp only [List.length_nil] at hcount
        omega
      | r :: rs =>
        simp only [alignSpecFrom, if_neg hj, nonSofEntries, if_neg hj, List.map_cons]
        rw [ih (j + 1) rs (by simp only [List.length_cons] at hcount; omega)]

theorem blank_take_drop (l : List (Option BPart)) (a b : Nat)
    (hb : a + b ≤ l.length)
    (hblank : ∀ j, a ≤ j → j < l.length → l[j]? = some none) :
    (l.drop a).take b = List.replicate b none := by
  apply List.ext_getElem?
  intro t
  rw [List.getElem?_take]
  by_cases ht : t < b
  · rw [if_pos ht, List.getElem?_drop, List.getElem?_replicate, if_pos ht]
    exact hblank (a + t) (by omega) (by omega)
  · rw [if_neg ht, List.getElem?_replicate, if_neg ht]

theorem take_set_succ (l : List (Option BPart)) (n : Nat) (x : Option BPart)
    (h : n < l.length) :
    (l.set n x).take (n + 1) = l.take n ++ [x] := by
  have htl : (l.take n).length = n := by
    rw [List.length_take]
    omega
  apply List.ext_getElem?
  intro t
  rw [List.getElem?_take]
  by_cases ht : t < n + 1
  · rw [if_pos ht]
    by_cases htn : t = n
    · subst htn
      rw [List.getElem?_set_self h]
      rw [List.getElem?_append_right (by omega)]
      rw [htl]
      simp
    · have htn2 : t < n := by omega
      rw [List.getElem?_set_ne (by omega)]
      rw [List.getElem?_append, htl, if_pos htn2]
      rw [List.getElem?_take, if_pos htn2]
  · rw [if_neg ht]
    have hta : (l.take n ++ [x]).length = n + 1 := by
      rw [List.length_append, htl]
      rfl
    rw [List.getElem?_eq_none (by omega)]

theorem alignGo_spec (sof : List Nat) (hsorted : List.Sorted (· < ·) sof) :
    ∀ (res : List BPart) (i s : Nat) (arr : List (Option BPart)),
      s ≤ sof.length →
      (∀ k v, sof[k]? = some v → s ≤ k → i + s ≤ v) →
      (∀ k v, sof[k]? = some v → k < s → v < i + s) →
      (∀ j, i + s ≤ j → j < arr.length → arr[j]? = some none) →
      i + s + res.length + (sof.length - s) = arr.length →
      alignGo sof res i s arr
        = arr.take (i + s) ++ alignSpecFrom sof (i + s) (arr.length - (i + s)) res := by
  intro res
  induction res with
  | nil =>
    intro i s arr hs hJ hK hblank hcount
    rw [alignSpecFrom_nil]
    have hdl : (arr.drop (i + s)).length = arr.length - (i + s) := by
      rw [List.length_drop]
    have hfull : arr.drop (i + s) = (arr.drop (i + s)).take (arr.length - (i + s)) :=
      (List.take_of_length_le (le_of_eq hdl)).symm
    have hrep := blank_take_drop arr (i + s) (arr.length - (i + s)) (by omega) hblank
    show arr = _
    rw [← hrep, ← hfull, List.take_append_drop]
  | cons r rs ih =>
    intro i s arr hs hJ hK hblank hcount
    simp only [List.length_cons] at hcount
    obtain ⟨ha1, ha2, ha3, ha4⟩ := advanceIdx_spec sof i s hs
    have hsub1 : sof.length - s + s = sof.length := Nat.sub_add_cancel hs
    have hsub2 : sof.length - advanceIdx sof i s + advanceIdx sof i s = sof.length :=
      Nat.sub_add_cancel ha2
    -- value bound at and beyond the advanced cursor
    have hgt_s2 : ∀ v, sof[advanceIdx sof i s]? = some v → i + advanceIdx sof i s < v := by
      intro v hv
      have hne := ha4 v hv
      rcases Nat.eq_or_lt_of_le ha1 with heq | hlt
      · have hge := hJ _ v hv (by omega)
        omega
      · have hprev : sof[advanceIdx sof i s - 1]? = some (i + (advanceIdx sof i s - 1)) :=
          ha3 _ (by omega) (by omega)
        have := sorted_getElem?_lt hsorted hprev hv (by omega)
        omega
    have hgt : ∀ k v, sof[k]? = some v → advanceIdx sof i s ≤ k →
        i + advanceIdx sof i s < v := by
      intro k v hk hks
      rcases Nat.eq_or_lt_of_le hks with heq | hlt
      · exact hgt_s2 v (by rw [heq]; exact hk)
      · have hklen := (List.getElem?_eq_some_iff.mp hk).1
        have hs2lt : advanceIdx sof i s < sof.length := by omega
        have hw : sof[advanceIdx sof i s]? = some sof[advanceIdx sof i s] :=
          List.getElem?_eq_getElem hs2lt
        have h1 := hgt_s2 _ hw
        have h2 := sorted_getElem?_lt hsorted hw hk hlt
        omega
    have hnotmem : (i + advanceIdx sof i s) ∉ sof := by
      intro hmem
      obtain ⟨k, hk⟩ := List.mem_iff_getElem?.mp hmem
      by_cases hks : advanceIdx sof i s ≤ k
      · have := hgt k _ hk hks
        omega
      · push_neg at hks
        by_cases hkslt : k < s
        · have := hK k _ hk hkslt
          omega
        · have h3 := ha3 k (by omega) hks
          rw [h3] at hk
          have := Option.some.inj hk
          omega
    have hmemrange : ∀ u, u < advanceIdx sof i s - s → (i + s + u) ∈ sof := by
      intro u hu
      have h3 := ha3 (s + u) (by omega) (by omega)
      rw [show i + (s + u) = i + s + u from by omega] at h3
      exact List.mem_iff_getElem?.mpr ⟨s + u, h3⟩
    have harrlen : i + advanceIdx sof i s < arr.length := by omega
    -- apply the induction hypothesis one position further
    have hih := ih (i + 1) (advanceIdx sof i s) (arr.set (i + advanceIdx sof i s) (some r))
      ha2
      (fun k v hk hks => by have := hgt k v hk hks; omega)
      (fun k v hk hks => by
        by_cases hkslt : k < s
        · have := hK k v hk hkslt; omega
        · have := ha3 k (by omega) hks
          rw [this] at hk
          have := Option.some.inj hk
          omega)
      (fun j hj hjlen => by
        rw [List.length_set] at hjlen
        rw [List.getElem?_set_ne (by omega)]
        exact hblank j (by omega) hjlen)
      (by rw [List.length_set]; omega)
    simp only [alignGo]
    rw [hih]
    -- rewrite the set-array take and length
    rw [List.length_set]
    rw [show i + 1 + advanceIdx sof i s = (i + advanceIdx sof i s) + 1 from by omega]
    rw [take_set_succ arr (i + advanceIdx sof i s) (some r) harrlen]
    -- decompose the take of the larger prefix
    rw [show i + advanceIdx sof i s = (i + s) + (advanceIdx sof i s - s) from by omega,
        List.take_add]
    rw [blank_take_drop arr (i + s) (advanceIdx sof i s - s) (by omega) hblank]
    -- decompose the specification walk on the right-hand side
    rw [show arr.length - (i + s)
          = (advanceIdx sof i s - s) + (arr.length - (i + advanceIdx sof i s)) from by omega]
    rw [alignSpecFrom_skip sof (advanceIdx sof i s - s) (i + s)
          (arr.length - (i + advanceIdx sof i s)) (r :: rs) hmemrange]
    rw [show (i + s) + (advanceIdx sof i s - s) = i + advanceIdx sof i s from by omega]
    rw [show arr.length - (i + advanceIdx sof i s)
          = (arr.length - ((i + advanceIdx sof i s) + 1)) + 1 from by omega]
    rw [show alignSpecFrom sof (i + advanceIdx sof i s)
          ((arr.length - ((i + advanceIdx sof i s) + 1)) + 1) (r :: rs)
        = some r :: alignSpecFrom sof ((i + advanceIdx sof i s) + 1)
          (arr.length - ((i + advanceIdx sof i s) + 1)) rs from by
      simp [alignSpecFrom, hnotmem]]
    rw [show (i + advanceIdx sof i s) + 1 = i + 1 + advanceIdx sof i s from by omega]
    simp [List.append_assoc]

theorem alignSpecFrom_no_sof (sofv : List Nat) :
    ∀ (res : List BPart) (j : Nat), (∀ u, (j + u) ∉ sofv) →
      alignSpecFrom sofv j res.length res = res.map some := by
  intro res
  induction res with
  | nil => intro j _; rfl
  | cons r rs ih =>
    intro j hnm
    have hj : j ∉ sofv := by simpa using hnm 0
    simp only [List.length_cons, alignSpecFrom, if_neg hj, List.map_cons]
    rw [ih (j + 1) (fun u => by
      have := hnm (u + 1)
      rw [show j + (u + 1) = j + 1 + u from by omega] at this
      exact this)]

theorem countSof_full (sofv : List Nat) (len : Nat) (hnd : sofv.Nodup)
    (hb : ∀ v ∈ sofv, v < len) : countSofIn sofv 0 len = sofv.length := by
  have hrange : List.range' 0 len = List.range len := (List.range_eq_range' len).symm
  have hfnd : ((List.range len).filter (fun v => v ∈ sofv)).Nodup :=
    (List.nodup_range len).filter _
  have hmemiff : ∀ x, x ∈ (List.range len).filter (fun v => v ∈ sofv) ↔ x ∈ sofv := by
    intro x
    rw [List.mem_filter]
    constructor
    · intro ⟨_, hx⟩
      simpa using hx
    · intro hx
      exact ⟨List.mem_range.mpr (hb x hx), by simpa using hx⟩
  have hperm := (List.perm_ext_iff_of_nodup hfnd hnd).mpr hmemiff
  rw [countSofIn, hrange]
  exact hperm.length_eq

theorem alignBranchResult_ok (len : Nat) (skipped failed : List Nat)
    (result : List (List BPart))
    (hnd : (skipped ++ failed).Nodup)
    (hbound : ∀ v ∈ skipped ++ failed, v < len)
    (hcount : result.flatten.length + (skipped ++ failed).length = len) :
    alignBranchResult len skipped failed result
      = Except.ok (alignSpecFrom (List.insertionSort (· ≤ ·) (skipped ++ failed)) 0 len
          result.flatten) := by
  have hperm := List.perm_insertionSort (· ≤ ·) (skipped ++ failed)
  have hsnd : (List.insertionSort (· ≤ ·) (skipped ++ failed)).Nodup :=
    hperm.nodup_iff.mpr hnd
  have hslen : (List.insertionSort (· ≤ ·) (skipped ++ failed)).length
      = (skipped ++ failed).length := hperm.length_eq
  have hsmem : ∀ v, v ∈ List.insertionSort (· ≤ ·) (skipped ++ failed) ↔
      v ∈ skipped ++ failed := fun v => hperm.mem_iff
  have hsbound : ∀ v ∈ List.insertionSort (· ≤ ·) (skipped ++ failed), v < len :=
    fun v hv => hbound v ((hsmem v).mp hv)
  have hsorted : List.Sorted (· < ·) (List.insertionSort (· ≤ ·) (skipped ++ failed)) :=
    (List.sorted_insertionSort (· ≤ ·) (skipped ++ failed)).lt_of_le hsnd
  have hcond : ¬ (result.flatten.length
      + (List.insertionSort (· ≤ ·) (skipped ++ failed)).length ≠ len) := by
    rw [hslen]
    omega
  rw [alignBranchResult]
  simp only [if_neg hcond]
  by_cases hempty : (List.insertionSort (· ≤ ·) (skipped ++ failed)).isEmpty
  · simp only [hempty, if_pos]
    have hnil : List.insertionSort (· ≤ ·) (skipped ++ failed) = [] :=
      List.isEmpty_iff.mp hempty
    have hlen0 : len = result.flatten.length := by
      rw [hnil] at hslen
      simp only [List.length_nil] at hslen
      omega
    rw [hlen0, hnil]
    rw [alignSpecFrom_no_sof [] result.flatten 0 (fun u => by simp)]
  · simp only [hempty, Bool.false_eq_true, if_false]
    have hgo := alignGo_spec (List.insertionSort (· ≤ ·) (skipped ++ failed)) hsorted
      result.flatten 0 0 (List.replicate len none)
      (Nat.zero_le _)
      (fun k v _ _ => by omega)
      (fun k v _ hk => by omega)
      (fun j _ hj => by
        rw [List.getElem?_replicate, if_pos (by simpa using hj)])
      (by
        rw [List.length_replicate, hslen]
        omega)
    rw [hgo]
    simp

/-- Result of applying the requestMap to one part (MapOnto inside
Branch.createResult, processor_branch.go lines 402-421): a mapping
error, a deleted part (skip), or a mapped request part. -/
inductive MapRes where
  | fail (e : String)
  | deleted
  | mapped (p : BPart)

/-- The branch configuration with its opaque executors (the spec treats
request_map, result_map and the child processors as opaque): `children`
returns none when processor.ExecuteAll fails and some [] when it
produces zero messages; `resultMap` maps (index, payload part, result
part) to a mapping error, nil (keep the payload part) or a new part. -/
structure BranchCfg where
  requestMap : Option (Nat → BPart → MapRes)
  children : List BPart → Option (List (List BPart))
  resultMap : Option (Nat → BPart → BPart → Except String (Option BPart))

/-- Embedding of the request-construction loop of Branch.createResult
(processor_branch.go lines 395-421): walk the parts with their index,
collecting the mapped request parts, the skipped (deleted) indices, the
failed (request-mapping-error) indices, and the per-index errors. -/
def buildRequestsFrom (reqMap : Nat → BPart → MapRes) :
    Nat → List BPart → List BPart × List Nat × List Nat × List (Nat × String)
  | _, [] => ([], [], [], [])
  | i, p :: rest =>
    let r := buildRequestsFrom reqMap (i + 1) rest
    match reqMap i p with
    | MapRes.fail e =>
      (r.1, r.2.1, i :: r.2.2.1, (i, "request mapping failed: " ++ e) :: r.2.2.2)
    | MapRes.deleted => (r.1, i :: r.2.1, r.2.2.1, r.2.2.2)
    | MapRes.mapped q => (q :: r.1, r.2.1, r.2.2.1, r.2.2.2)

/-- Embedding of Branch.createResult (processor_branch.go lines
388-463): build the request parts, execute the child processors when
any requests remain, align the results via alignBranchResult, then
blank aligned parts that carry an error and record those errors. -/
def createResult (cfg : BranchCfg) (parts : List BPart) :
    Except String (List (Option BPart)) × List (Nat × String) :=
  let b :=
    match cfg.requestMap with
    | none => (parts, [], [], [])
    | some rm => buildRequestsFrom rm 0 parts
  let mapErrs := b.2.2.2
  let procResults : Except String (List (List BPart)) :=
    if b.1.isEmpty then Except.ok []
    else
      match cfg.children b.1 with
      | none => Except.error "child processors failed"
      | some [] => Except.error "child processors resulted in zero messages"
      | some rs => Except.ok rs
  match procResults with
  | Except.error e => (Except.error e, mapErrs)
  | Except.ok rs =>
    match alignBranchResult parts.length b.2.1 b.2.2.1 rs with
    | Except.error e => (Except.error e, mapErrs)
    | Except.ok aligned =>
      (Except.ok (aligned.map (fun q =>
          match q with
          | none => none
          | some p => if p.perr.isSome then none else some p)),
       mapErrs ++ aligned.enum.filterMap (fun q =>
          match q.2 with
          | some p =>
            match p.perr with
            | some fe => some (q.1, "processors failed: " ++ fe)
            | none => none
          | none => none))

/-- Embedding of result.Get(e.index).ErrorSet(e.err): set the error
slot of the part at index i. -/
def setErrAt (parts : List BPart) (i : Nat) (e : String) : List BPart :=
  parts.enum.map (fun q => if q.1 = i then BPart.mk q.2.data (some e) else q.2)

/-- Embedding of the override loops of Branch.ProcessMessage that apply
the recorded per-index errors in order. -/
def applyMapErrs (parts : List BPart) (errs : List (Nat × String)) : List BPart :=
  errs.foldl (fun ps q => setErrAt ps q.1 q.2) parts

/-- Embedding of Branch.overlayResult (processor_branch.go lines
467-514): nil results leave the payload part unchanged; a
result-mapping failure records the error and keeps the part; a nil
mapped part keeps the part. -/
def overlayResult (rm : Option (Nat → BPart → BPart → Except String (Option BPart)))
    (payload : List BPart) (results : List (Option BPart)) :
    Except String (List BPart × List (Nat × String)) :=
  if payload.length ≠ results.length then
    Except.error "message count returned from branch has diverged from the request"
  else
    match rm with
    | none => Except.ok (payload, [])
    | some f =>
      let mapped := (payload.zip results).enum.map (fun q =>
        match q.2.2 with
        | none => (q.2.1, (none : Option (Nat × String)))
        | some rp =>
          match f q.1 q.2.1 rp with
          | Except.error e => (q.2.1, some (q.1, "result mapping failed: " ++ e))
          | Except.ok none => (q.2.1, none)
          | Except.ok (some p2) => (p2, none))
      Except.ok (mapped.map Prod.fst, mapped.filterMap Prod.snd)

/-- Embedding of Branch.ProcessMessage (processor_branch.go lines
312-369): clear error slots on the branch copy, run createResult; on a
branch error return the original batch with the error set on every
part, then override with the mapping-specific errors; otherwise overlay
the aligned results onto a copy of the original batch. -/
def processMessage (cfg : BranchCfg) (msg : List BPart) : List BPart :=
  let parts := msg.map (fun p => BPart.mk p.data none)
  match createResult cfg parts with
  | (Except.error e, mapErrs) =>
    applyMapErrs (msg.map (fun p => BPart.mk p.data (some e))) mapErrs
  | (Except.ok aligned, mapErrs) =>
    let result := applyMapErrs msg mapErrs
    match overlayResult cfg.resultMap result aligned with
    | Except.error e => result.map (fun p => BPart.mk p.data (some e))
    | Except.ok pr => applyMapErrs pr.1 pr.2

theorem setErrAt_getElem? (parts : List BPart) (i : Nat) (e : String) (j : Nat) :
    (setErrAt parts i e)[j]?
      = (parts[j]?).map (fun p => if j = i then BPart.mk p.data (some e) else p) := by
  rw [setErrAt, List.getElem?_map, List.getElem?_enum]
  cases hp : parts[j]? with
  | none => rfl
  | some p => rfl

theorem applyMapErrs_not_mem (errs : List (Nat × String)) :
    ∀ (parts : List BPart) (j : Nat) (p : BPart), j ∉ errs.map Prod.fst →
      parts[j]? = some p → (applyMapErrs parts errs)[j]? = some p := by
  induction errs with
  | nil => intro parts j p _ hp; exact hp
  | cons q rest ih =>
    intro parts j p hmem hp
    simp only [List.map_cons, List.mem_cons] at hmem
    push_neg at hmem
    have hstep : (setErrAt parts q.1 q.2)[j]? = some p := by
      rw [setErrAt_getElem?, hp]
      simp [hmem.1]
    exact ih (setErrAt parts q.1 q.2) j p hmem.2 hstep

theorem applyMapErrs_mem (errs : List (Nat × String)) :
    ∀ (parts : List BPart) (j : Nat) (er : String) (p : BPart),
      (errs.map Prod.fst).Nodup → (j, er) ∈ errs → parts[j]? = some p →
      (applyMapErrs parts errs)[j]? = some (BPart.mk p.data (some er)) := by
  induction errs with
  | nil => intro parts j er p _ hmem _; simp at hmem
  | cons q rest ih =>
    intro parts j er p hnd hmem hp
    simp only [List.map_cons, List.nodup_cons] at hnd
    rcases List.mem_cons.mp hmem with heq | hmem2
    · have hq1 : q.1 = j := by rw [← heq]
      have hq2 : q.2 = er := by rw [← heq]
      have hstep : (setErrAt parts q.1 q.2)[j]? = some (BPart.mk p.data (some er)) := by
        rw [setErrAt_getElem?, hp, hq1, hq2]
        simp
      have hnotmem : j ∉ rest.map Prod.fst := by
        rw [← hq1]
        exact hnd.1
      exact applyMapErrs_not_mem rest (setErrAt parts q.1 q.2) j _ hnotmem hstep
    · have hq1 : q.1 ≠ j := by
        intro hq
        exact hnd.1 (hq ▸ (List.mem_map.mpr ⟨(j, er), hmem2, rfl⟩))
      have hstep : (setErrAt parts q.1 q.2)[j]? = some p := by
        rw [setErrAt_getElem?, hp]
        have hne : ¬ (j = q.1) := fun h => hq1 h.symm
        simp [hne]
      exact ih (setErrAt parts q.1 q.2) j er p hnd.2 hmem2 hstep

theorem alignBranchResult_mismatch (len : Nat) (skipped failed : List Nat)
    (result : List (List BPart))
    (h : result.flatten.length + (skipped.length + failed.length) ≠ len) :
    alignBranchResult len skipped failed result
      = Except.error ("message count from branch processors does not match request, started with "
          ++ toString (result.flatten.length + (skipped.length + failed.length))
          ++ " messages, finished with " ++ toString len) := by
  have hslen : (List.insertionSort (· ≤ ·) (skipped ++ failed)).length
      = skipped.length + failed.length := by
    rw [(List.perm_insertionSort (· ≤ ·) (skipped ++ failed)).length_eq, List.length_append]
  rw [alignBranchResult]
  simp only [hslen]
  rw [if_pos h]

theorem processMessage_error_path (cfg : BranchCfg) (msg : List BPart) (e : String)
    (mapErrs : List (Nat × String))
    (h : createResult cfg (msg.map (fun p => BPart.mk p.data none))
          = (Except.error e, mapErrs)) :
    processMessage cfg msg
      = applyMapErrs (msg.map (fun p => BPart.mk p.data (some e))) mapErrs := by
  rw [processMessage, h]

/-- Counterexample configuration: the request map fails on index 0 and
the child processors duplicate the request batch, so the child result
count diverges from the original batch length. -/
def cexCfg : BranchCfg :=
  BranchCfg.mk
    (some (fun i p => if i = 0 then MapRes.fail "boom" else MapRes.mapped p))
    (fun l => some [l ++ l])
    none

def cexMsg : List BPart := [BPart.mk "a" none, BPart.mk "b" none]

/-- Counterexample to claim C10 as stated: on a misaligned branch the
returned batch is the original one with the alignment error on every
part except those whose request map failed — part 0 carries the
request-mapping error, not the alignment error, so "that alignment
error set in the error slot of every part" is false. -/
theorem branch_alignment_cex :
    processMessage cexCfg cexMsg
      = [BPart.mk "a" (some "request mapping failed: boom"),
         BPart.mk "b" (some ("message count from branch processors does not match request, "
           ++ "started with 3 messages, finished with 2"))]
    ∧ ¬ (∀ p ∈ processMessage cexCfg cexMsg,
          p.perr = some ("message count from branch processors does not match request, "
            ++ "started with 3 messages, finished with 2")) := by
  constructor
  · decide
  · decide

/-- Claim C10, amended.  If the number of parts returned by the child
processors plus the number of skipped and request-map-failed indices
differs from the original batch length, alignBranchResult fails with the
count-mismatch error and the branch returns the original batch with
that error set in the error slot of every part except the
request-map-failed indices, which retain their request-mapping errors
(the per-index overrides); otherwise the results are aligned back to
the original length with nil exactly at each skipped or failed index,
the remaining positions carrying the child results in order. -/
theorem branch_alignment_amended :
    (∀ (len : Nat) (skipped failed : List Nat) (result : List (List BPart)),
      result.flatten.length + (skipped.length + failed.length) ≠ len →
      alignBranchResult len skipped failed result
        = Except.error ("message count from branch processors does not match request, started with "
            ++ toString (result.flatten.length + (skipped.length + failed.length))
            ++ " messages, finished with " ++ toString len))
    ∧ (∀ (cfg : BranchCfg) (msg : List BPart) (e : String) (mapErrs : List (Nat × String)),
        createResult cfg (msg.map (fun p => BPart.mk p.data none)) = (Except.error e, mapErrs) →
        processMessage cfg msg
          = applyMapErrs (msg.map (fun p => BPart.mk p.data (some e))) mapErrs)
    ∧ (∀ (parts : List BPart) (errs : List (Nat × String)) (j : Nat) (p : BPart),
        j ∉ errs.map Prod.fst → parts[j]? = some p →
        (applyMapErrs parts errs)[j]? = some p)
    ∧ (∀ (parts : List BPart) (errs : List (Nat × String)) (j : Nat) (er : String) (p : BPart),
        (errs.map Prod.fst).Nodup → (j, er) ∈ errs → parts[j]? = some p →
        (applyMapErrs parts errs)[j]? = some (BPart.mk p.data (some er)))
    ∧ (∀ (len : Nat) (skipped failed : List Nat) (result : List (List BPart)),
        (skipped ++ failed).Nodup → (∀ v ∈ skipped ++ failed, v < len) →
        result.flatten.length + (skipped ++ failed).length = len →
        alignBranchResult len skipped failed result
          = Except.ok (alignSpecFrom (List.insertionSort (· ≤ ·) (skipped ++ failed)) 0 len
              result.flatten)
        ∧ (alignSpecFrom (List.insertionSort (· ≤ ·) (skipped ++ failed)) 0 len
            result.flatten).length = len
        ∧ (∀ j, j < len → j ∈ skipped ++ failed →
            (alignSpecFrom (List.insertionSort (· ≤ ·) (skipped ++ failed)) 0 len
              result.flatten)[j]? = some none)
        ∧ nonSofEntries (List.insertionSort (· ≤ ·) (skipped ++ failed)) 0
            (alignSpecFrom (List.insertionSort (· ≤ ·) (skipped ++ failed)) 0 len
              result.flatten)
          = result.flatten.map some) := by
  refine ⟨alignBranchResult_mismatch, processMessage_error_path,
    fun parts errs => applyMapErrs_not_mem errs parts,
    fun parts errs => applyMapErrs_mem errs parts, ?_⟩
  intro len skipped failed result hnd hbound hcount
  have hperm := List.perm_insertionSort (· ≤ ·) (skipped ++ failed)
  refine ⟨alignBranchResult_ok len skipped failed result hnd hbound hcount,
    alignSpecFrom_length _ len 0 _, ?_, ?_⟩
  · intro j hj hjmem
    have hmem2 : (0 + j) ∈ List.insertionSort (· ≤ ·) (skipped ++ failed) := by
      simpa using hperm.mem_iff.mpr hjmem
    exact alignSpecFrom_sof_none _ len 0 j _ hj hmem2
  · apply alignSpecFrom_extract
    have hcs := countSof_full (List.insertionSort (· ≤ ·) (skipped ++ failed)) len
      (hperm.nodup_iff.mpr hnd)
      (fun v hv => hbound v (hperm.mem_iff.mp hv))
    rw [hcs, hperm.length_eq]
    omega

/-- Witness for the amended C10: a five-part batch with index 1 skipped
and index 3 failed aligns three child results back with nils at
positions 1 and 3; and a recorded request-mapping error overrides the
branch-wide error at its index. -/
theorem branch_alignment_amended_witness :
    alignBranchResult 5 [1] [3]
        [[BPart.mk "r0" none, BPart.mk "r2" none, BPart.mk "r4" none]]
      = Except.ok [some (BPart.mk "r0" none), none, some (BPart.mk "r2" none), none,
                   some (BPart.mk "r4" none)]
    ∧ (applyMapErrs [BPart.mk "a" (some "E"), BPart.mk "b" (some "E")]
        [(0, "request mapping failed: boom")])[0]?
      = some (BPart.mk "a" (some "request mapping failed: boom")) := by
  constructor
  · have h := branch_alignment_amended.2.2.2.2 5 [1] [3]
      [[BPart.mk "r0" none, BPart.mk "r2" none, BPart.mk "r4" none]]
      (by decide) (by decide) (by decide)
    rw [h.1]
    exact congrArg Except.ok (by decide)
  · exact branch_alignment_amended.2.2.2.1
      [BPart.mk "a" (some "E"), BPart.mk "b" (some "E")]
      [(0, "request mapping failed: boom")] 0 "request mapping failed: boom"
      (BPart.mk "a" (some "E")) (by decide) (by decide) (by decide)
